import Mathlib

/-!
Verification development for the banyandb stream write pipeline
(`banyand/stream/write.go`) and the cron task scheduler
(`pkg/timestamp` scheduler file).

The Go code is shallowly embedded: pure helpers become Lean functions,
the storage layer (tsdb / segments / ts-tables / index handles) becomes
an explicit environment of deterministic functions plus a trace of the
operations the write path invokes on it, and the per-batch accumulator
(`map[string]*elementsInGroup`) becomes an association list threaded
through the functions that the Go code mutates through pointers.
-/

namespace Stream

/-- Typed tag value carried by a write request (`modelv1.TagValue` oneof).
`null` is a value whose oneof is `Null`; the *sentinel* `pbv1.NullTagValue`
used by the Go code for a missing tag is represented separately, as `none`
of `Option TagValue`, because the Go code compares it by pointer identity. -/
inductive TagValue where
  | null
  | intV (v : Int)
  | strV (s : String)
  | binaryData (b : List Nat)
  | intArray (vs : List Int)
  | strArray (vs : List String)
deriving DecidableEq

/-- `tagVal.GetInt()`: non-nil exactly when the oneof is an int value. -/
def TagValue.getInt : TagValue → Option Int
  | .intV v => some v
  | _ => none

/-- `tagVal.GetStr()`. -/
def TagValue.getStr : TagValue → Option String
  | .strV s => some s
  | _ => none

/-- `tagVal.GetBinaryData()`. -/
def TagValue.getBinaryData : TagValue → Option (List Nat)
  | .binaryData b => some b
  | _ => none

/-- `tagVal.GetIntArray()`. -/
def TagValue.getIntArray : TagValue → Option (List Int)
  | .intArray vs => some vs
  | _ => none

/-- `tagVal.GetStrArray()`. -/
def TagValue.getStrArray : TagValue → Option (List String)
  | .strArray vs => some vs
  | _ => none

/-- `databasev1.TagType`. -/
inductive TagType where
  | unspecified
  | int
  | string
  | dataBinary
  | intArray
  | stringArray
deriving DecidableEq

/-- `pbv1.ValueType` of an encoded column value. -/
inductive ValueType where
  | unknown
  | int64
  | str
  | binaryData
  | int64Arr
  | strArr
deriving DecidableEq

/-- The column-side encoded tag value (`stream.tagValue`; the struct itself
lives in a stream-package file outside `src/`, its fields are taken from the
uses in `write.go`: `tag`, `valueType`, `value`, `valueArr`, `indexed`).
A fresh pooled object (`generateTagValue`) has zero fields. -/
structure tagValue where
  tag : String := ""
  valueType : ValueType := .unknown
  value : Option (List Nat) := none
  valueArr : Option (List (List Nat)) := none
  indexed : Bool := false
deriving DecidableEq

/-- `convert.Int64ToBytes`: the 8 big-endian bytes of the two's-complement
64-bit representation. -/
def Int64ToBytes (v : Int) : List Nat :=
  let u := (v % (2 : Int) ^ 64).toNat
  (List.range 8).map (fun i => u / 2 ^ (8 * (7 - i)) % 256)

/-- `convert.StringToBytes`: the UTF-8 bytes of the string. -/
def StringToBytes (s : String) : List Nat :=
  s.toUTF8.toList.map (fun b => b.toNat)

/-- `encodeTagValue` (write.go): type-driven encoding of one tag value into a
`tagValue`. `none` models the `logger.Panicf` abort on an unsupported tag
type. The missing-tag sentinel is passed here as `TagValue.null`, which has
exactly the nil getters the sentinel has in Go. -/
def encodeTagValue (name : String) (tagType : TagType) (tagVal : TagValue) :
    Option tagValue :=
  let tv : tagValue := { tag := name }
  match tagType with
  | .int =>
    some { tv with
      valueType := .int64,
      value := (tagVal.getInt).map Int64ToBytes }
  | .string =>
    some { tv with
      valueType := .str,
      value := (tagVal.getStr).map StringToBytes }
  | .dataBinary =>
    some { tv with
      valueType := .binaryData,
      value := tagVal.getBinaryData }
  | .intArray =>
    match tagVal.getIntArray with
    | none => some { tv with valueType := .int64Arr }
    | some vs =>
      some { tv with
        valueType := .int64Arr,
        valueArr := some (vs.map Int64ToBytes) }
  | .stringArray =>
    match tagVal.getStrArray with
    | none => some { tv with valueType := .strArr }
    | some vs =>
      some { tv with
        valueType := .strArr,
        valueArr := some (vs.map StringToBytes) }
  | .unspecified => none

/-- `index.FieldKey` as used by `processElements`. -/
structure FieldKey where
  indexRuleID : Nat
  analyzer : String
  seriesID : Nat
deriving DecidableEq

/-- The typed value of an index field (`index.NewIntField` etc.). -/
inductive FieldValue where
  | intF (v : Int)
  | strF (s : String)
  | bytesF (b : List Nat)
deriving DecidableEq

/-- `index.Field`. -/
structure Field where
  key : FieldKey
  value : FieldValue
  noSort : Bool
deriving DecidableEq

/-- `appendField` (write.go): projects one tag value into zero or more typed
index fields; arrays fan out, nil scalars contribute nothing. `none` models
the `logger.Panicf` abort on an unsupported tag type. -/
def appendField (dest : List Field) (fieldKey : FieldKey) (tagType : TagType)
    (tagVal : TagValue) (noSort : Bool) : Option (List Field) :=
  match tagType with
  | .int =>
    match tagVal.getInt with
    | none => some dest
    | some v => some (dest ++ [{ key := fieldKey, value := .intF v, noSort := noSort }])
  | .string =>
    match tagVal.getStr with
    | none => some dest
    | some s => some (dest ++ [{ key := fieldKey, value := .strF s, noSort := noSort }])
  | .dataBinary =>
    match tagVal.getBinaryData with
    | none => some dest
    | some b => some (dest ++ [{ key := fieldKey, value := .bytesF b, noSort := noSort }])
  | .intArray =>
    match tagVal.getIntArray with
    | none => some dest
    | some vs =>
      some (dest ++ vs.map (fun v => { key := fieldKey, value := .intF v, noSort := noSort }))
  | .stringArray =>
    match tagVal.getStrArray with
    | none => some dest
    | some vs =>
      some (dest ++ vs.map (fun s => { key := fieldKey, value := .strF s, noSort := noSort }))
  | .unspecified => none

/-- `databasev1.IndexRule_Type`. -/
inductive IndexRuleType where
  | unspecified
  | inverted
  | skipping
deriving DecidableEq

/-- The part of a `databasev1.IndexRule` read by the write path. -/
structure IndexRule where
  id : Nat
  analyzer : String
  noSort : Bool
  ruleType : IndexRuleType
deriving DecidableEq

/-- One tag spec of a schema tag family (`databasev1.TagSpec`). -/
structure TagSpec where
  name : String
  typ : TagType
  indexedOnly : Bool
deriving DecidableEq

/-- One schema tag family (`databasev1.TagFamilySpec`). -/
structure TagFamilySpec where
  name : String
  tags : List TagSpec
deriving DecidableEq

/-- `streamv1.Stream` schema part read by the write path. -/
structure StreamSchema where
  tagFamilies : List TagFamilySpec
deriving DecidableEq

/-- `indexSchema.indexRuleLocators`: per tag family, a map from tag name to
its index rule, plus the set of entity tag names. Maps become association
lists / name lists. -/
structure IndexSchema where
  tagFamilyTRule : List (List (String × IndexRule))
  entitySet : List String
deriving DecidableEq

/-- The stream handle loaded from the schema repo: its schema and the
atomically-loaded index schema snapshot. -/
structure StreamDef where
  schema : StreamSchema
  indexSchema : IndexSchema
deriving DecidableEq

/-- `streamv1.InternalWriteRequest` after field extraction: shard id, series
entity values, metadata (group, name) and element (timestamp as UnixNano,
element id, tag families). A tag family is a list of tag values. -/
structure WriteEvent where
  shardId : Nat
  entityValues : List TagValue
  group : String
  name : String
  timestamp : Int
  elementId : String
  tagFamilies : List (List TagValue)
deriving DecidableEq

/-- Column-wise accumulation of elements (`stream.elements`; the struct lives
outside `src/`, its four parallel arrays are taken from the uses in
`write.go`). `tagFamilies` holds, per element, the materialised families. -/
structure tagValues where
  tag : String
  values : List tagValue
deriving DecidableEq

/-- The four parallel arrays of a staged element batch. -/
structure Elements where
  timestamps : List Int := []
  elementIDs : List Nat := []
  seriesIDs : List Nat := []
  tagFamilies : List (List tagValues) := []
deriving DecidableEq

/-- `generateElements()` followed by `reset()`: an empty staged batch. -/
def emptyElements : Elements := {}

/-- `index.Document`: element documents carry fields and a timestamp, series
documents carry entity values. -/
structure Document where
  docID : Nat
  entityValues : Option (List Nat) := none
  fields : List Field := []
  timestamp : Int := 0
deriving DecidableEq

/-- `storage.TimeRange` is only consulted through `Contains`, so it is
embedded as its containment predicate. -/
abbrev TimeRange : Type := Int → Bool

/-- `TimeRange.Contains`. -/
def TimeRange.Contains (tr : TimeRange) (ts : Int) : Bool := tr ts

/-- A ref-counted segment handle: its identity and its time range. -/
structure Segment where
  sid : Nat
  timeRange : TimeRange

/-- `elementsInTable`. -/
structure elementsInTable where
  timeRange : TimeRange
  tsTable : Nat
  elements : Elements
  docs : List Document

/-- `elementsInGroup`. -/
structure elementsInGroup where
  tsdb : Nat
  tables : List elementsInTable
  segments : List Segment
  docs : List Document
  docIDsAdded : List Nat
  latestTS : Int

/-- The `map[string]*elementsInGroup` accumulator, as an association list
with Go-map unique keys (an invariant maintained by the code). -/
abbrev Groups : Type := List (String × elementsInGroup)

/-- The deterministic environment standing for the storage layer and the
helpers that live outside `src/`:
`tsCheck` models `timestamp.Check` (modelled from the spec: a policy
predicate on the nanosecond timestamp), `hashStr` models `convert.HashStr`
(modelled from the spec: an arbitrary 64-bit string hash), `marshalSeries`
models `pbv1.Series.Marshal` + `series.ID` (modelled from the spec: the
canonical series bytes and their hash; `none` is a marshalling error), and
`unmarshal` models `proto.Unmarshal` of a serialized write request. -/
structure Env where
  tsCheck : Int → Bool
  loadTSDB : String → Option Nat
  loadStream : String → String → Option StreamDef
  createSegmentIfNotExist : Nat → Int → Option Segment
  createTSTableIfNotExist : Nat → Nat → Option Nat
  hashStr : String → Nat
  marshalSeries : String → List TagValue → Option (Nat × List Nat)
  unmarshal : List Nat → Option WriteEvent

/-- One observable storage operation performed by the write path. -/
inductive Op where
  | loadTSDB (group : String) (result : Option Nat)
  | createSegment (tsdb : Nat) (ts : Int) (result : Option Nat)
  | createTSTable (sid : Nat) (shard : Nat) (result : Option Nat)
  | mustAddElements (tsTable : Nat) (elems : Elements)
  | indexWrite (tsTable : Nat) (docs : List Document)
  | indexInsert (sid : Nat) (docs : List Document)
  | decRef (sid : Nat)
  | tick (tsdb : Nat) (ts : Int)
deriving DecidableEq

/-- Outcome of a Go call that may return an error or abort the goroutine
with a panic. -/
inductive Res (α : Type) where
  | ok (val : α)
  | err (msg : String)
  | panicked (msg : String)

/-- Lookup in the group accumulator (Go map read). -/
def lookupGroup : Groups → String → Option elementsInGroup
  | [], _ => none
  | (k, v) :: rest, gn => if k = gn then some v else lookupGroup rest gn

/-- Update of an existing key in the group accumulator (Go map write to a
present key; absent keys are appended by `prepareElementsInGroup` itself). -/
def setGroup : Groups → String → elementsInGroup → Groups
  | [], _, _ => []
  | (k, v) :: rest, gn, eg =>
    if k = gn then (k, eg) :: rest else (k, v) :: setGroup rest gn eg

/-- `prepareElementsInGroup` (write.go): load the tsdb, create the group
accumulator entry if absent, and raise `latestTS`. Returns the group name,
its (updated) entry and the updated accumulator. -/
def prepareElementsInGroup (env : Env) (dst : Groups) (ev : WriteEvent)
    (ts : Int) : List Op × Res (String × elementsInGroup × Groups) :=
  let gn := ev.group
  match env.loadTSDB gn with
  | none => ([Op.loadTSDB gn none], .err "cannot load tsdb")
  | some tsdb =>
    let (eg, dst1) :=
      match lookupGroup dst gn with
      | some eg0 => (eg0, dst)
      | none =>
        let eg0 : elementsInGroup :=
          { tsdb := tsdb, tables := [], segments := [], docs := [],
            docIDsAdded := [], latestTS := 0 }
        (eg0, dst ++ [(gn, eg0)])
    let eg := if eg.latestTS < ts then { eg with latestTS := ts } else eg
    ([Op.loadTSDB gn (some tsdb)], .ok (gn, eg, setGroup dst1 gn eg))

/-- The scan over already-opened tables (`for i := range eg.tables`),
returning the index of the first table whose range contains `ts`. -/
def findTableIdx : List elementsInTable → Int → Option Nat
  | [], _ => none
  | t :: rest, ts =>
    if TimeRange.Contains t.timeRange ts then some 0
    else (findTableIdx rest ts).map (· + 1)

/-- The scan over already-acquired segments (`for _, seg := range
eg.segments`). -/
def findSegment : List Segment → Int → Option Segment
  | [], _ => none
  | s :: rest, ts =>
    if TimeRange.Contains s.timeRange ts then some s else findSegment rest ts

/-- The fresh `elementsInTable` attached for a newly resolved table. -/
def newElementsInTable (seg : Segment) (tid : Nat) : elementsInTable :=
  { timeRange := seg.timeRange, tsTable := tid, elements := emptyElements,
    docs := [] }

/-- `prepareElementsInTable` (write.go): reuse an open table whose range
contains `ts`; otherwise find or create (ref-acquire) a segment, create its
shard table and attach a fresh staged batch. Returns the index of the
resolved table inside `eg.tables` together with the updated entry. -/
def prepareElementsInTable (env : Env) (eg : elementsInGroup) (ev : WriteEvent)
    (ts : Int) : List Op × Res (Nat × elementsInGroup) :=
  match findTableIdx eg.tables ts with
  | some i => ([], .ok (i, eg))
  | none =>
    match findSegment eg.segments ts with
    | some seg =>
      match env.createTSTableIfNotExist seg.sid ev.shardId with
      | none =>
        ([Op.createTSTable seg.sid ev.shardId none], .err "cannot create ts table")
      | some tid =>
        ([Op.createTSTable seg.sid ev.shardId (some tid)],
         .ok (eg.tables.length,
              { eg with tables := eg.tables ++ [newElementsInTable seg tid] }))
    | none =>
      match env.createSegmentIfNotExist eg.tsdb ts with
      | none => ([Op.createSegment eg.tsdb ts none], .err "cannot create segment")
      | some seg =>
        let eg1 := { eg with segments := eg.segments ++ [seg] }
        match env.createTSTableIfNotExist seg.sid ev.shardId with
        | none =>
          ([Op.createSegment eg.tsdb ts (some seg.sid),
            Op.createTSTable seg.sid ev.shardId none],
           .err "cannot create ts table")
        | some tid =>
          ([Op.createSegment eg.tsdb ts (some seg.sid),
            Op.createTSTable seg.sid ev.shardId (some tid)],
           .ok (eg1.tables.length,
                { eg1 with tables := eg1.tables ++ [newElementsInTable seg tid] }))

/-- Rule lookup in a tag family's locator map (`tfr[t.Name]`). -/
def lookupRule : List (String × IndexRule) → String → Option IndexRule
  | [], _ => none
  | (k, r) :: rest, n => if k = n then some r else lookupRule rest n

/-- Resolution of the tag value at position `j` of the provided family:
`none` is the `pbv1.NullTagValue` sentinel (family missing, family sentinel,
or index out of range). -/
def resolveTag (tagFamily : Option (List TagValue)) (j : Nat) :
    Option TagValue :=
  match tagFamily with
  | none => none
  | some tags => if tags.length ≤ j then none else tags[j]?

/-- The rule-consultation block at the top of the inner tag loop of
`processElements` (`if r, ok := tfr[t.Name]; ok && tagValue !=
pbv1.NullTagValue { ... }`): an inverted rule appends index fields, a
skipping rule marks the value indexed. Returns the `indexed` flag and the
extended field list; panics on an unsupported tag type. -/
def processTagRule (tfr : List (String × IndexRule)) (t : TagSpec) (sid : Nat)
    (tagVal : Option TagValue) (fields : List Field) :
    Res (Bool × List Field) :=
  match lookupRule tfr t.name with
  | some r =>
    if tagVal.isSome then
      if r.ruleType = IndexRuleType.inverted then
        match appendField fields
            { indexRuleID := r.id, analyzer := r.analyzer, seriesID := sid }
            t.typ (tagVal.getD TagValue.null) r.noSort with
        | some fields1 => .ok (false, fields1)
        | none => .panicked "unsupported tag value type"
      else if r.ruleType = IndexRuleType.skipping then .ok (true, fields)
      else .ok (false, fields)
    else .ok (false, fields)
  | none => .ok (false, fields)

/-- The inner tag loop of `processElements` (`for j := range
tagFamilySpec.Tags`): consult the index rule, skip entity and indexed-only
tags, and append the encoded value otherwise. -/
def processTags (tfr : List (String × IndexRule)) (entitySet : List String)
    (tagFamily : Option (List TagValue)) (sid : Nat) :
    List TagSpec → Nat → List Field → List tagValue →
    Res (List tagValue × List Field)
  | [], _, fields, values => .ok (values, fields)
  | t :: rest, j, fields, values =>
    match processTagRule tfr t sid (resolveTag tagFamily j) fields with
    | .panicked e => .panicked e
    | .err e => .err e
    | .ok (indexed, fields1) =>
      if t.indexedOnly || entitySet.contains t.name then
        processTags tfr entitySet tagFamily sid rest (j + 1) fields1 values
      else
        match encodeTagValue t.name t.typ
            ((resolveTag tagFamily j).getD TagValue.null) with
        | none => .panicked "unsupported tag value type"
        | some tv =>
          processTags tfr entitySet tagFamily sid rest (j + 1) fields1
            (values ++ [{ tv with indexed := indexed }])

/-- The outer tag family loop of `processElements` (`for i := range
stm.GetSchema().GetTagFamilies()`): families are processed in schema order,
a family is materialised only when it keeps at least one value. -/
def processTagFamilies (entitySet : List String) (sid : Nat) :
    List (List (String × IndexRule)) → List (List TagValue) →
    List TagFamilySpec → List Field → List tagValues →
    Res (List tagValues × List Field)
  | _, _, [], fields, acc => .ok (acc, fields)
  | tfrs, reqFams, fs :: rest, fields, acc =>
    let tagFamily : Option (List TagValue) := reqFams[0]?
    let tfr := tfrs.headD []
    match processTags tfr entitySet tagFamily sid fs.tags 0 fields [] with
    | .panicked e => .panicked e
    | .err e => .err e
    | .ok (vals, fields1) =>
      let acc1 :=
        if vals.length > 0 then acc ++ [{ tag := fs.name, values := vals }]
        else acc
      processTagFamilies entitySet sid tfrs.tail reqFams.tail rest fields1 acc1

/-- `processElements` (write.go). The table the Go code mutates through the
`et` pointer is addressed by its index in `eg.tables`; the out-of-range
branch is unreachable in `handle`'s composition. -/
def processElements (env : Env) (etIdx : Nat) (eg : elementsInGroup)
    (ev : WriteEvent) (ts : Int) : Res elementsInGroup :=
  match eg.tables[etIdx]? with
  | none => .err "element table out of range"
  | some et =>
    let et := { et with elements :=
      { et.elements with timestamps := et.elements.timestamps ++ [ts] } }
    let eID := env.hashStr (ev.name ++ "|" ++ ev.elementId)
    let et := { et with elements :=
      { et.elements with elementIDs := et.elements.elementIDs ++ [eID] } }
    match env.loadStream ev.group ev.name with
    | none => .err "cannot find stream definition"
    | some stm =>
      let fLen := ev.tagFamilies.length
      if fLen < 1 then .err "has no tag family"
      else if stm.schema.tagFamilies.length < fLen then
        .err "has more tag families than schema"
      else
        match env.marshalSeries ev.name ev.entityValues with
        | none => .err "cannot marshal series"
        | some (sid, buf) =>
          let et := { et with elements :=
            { et.elements with seriesIDs := et.elements.seriesIDs ++ [sid] } }
          let is := stm.indexSchema
          if is.tagFamilyTRule.length ≠ stm.schema.tagFamilies.length then
            .err "metadata crashed"
          else
            match processTagFamilies is.entitySet sid is.tagFamilyTRule
                ev.tagFamilies stm.schema.tagFamilies [] [] with
            | .panicked e => .panicked e
            | .err e => .err e
            | .ok (tfs, fields) =>
              let et := { et with
                elements :=
                  { et.elements with tagFamilies := et.elements.tagFamilies ++ [tfs] },
                docs := et.docs ++
                  [{ docID := eID, fields := fields, timestamp := ts }] }
              let eg := { eg with tables := eg.tables.set etIdx et }
              let docID := sid
              if eg.docIDsAdded.contains docID then .ok eg
              else
                .ok { eg with
                  docs := eg.docs ++ [{ docID := docID, entityValues := some buf }],
                  docIDsAdded := eg.docIDsAdded ++ [docID] }

/-- `handle` (write.go): timestamp check, then the three preparation steps.
The operation trace of the failed prefix is kept even when an error is
returned, because those storage calls did happen. -/
def handle (env : Env) (dst : Groups) (ev : WriteEvent) :
    List Op × Res Groups :=
  if env.tsCheck ev.timestamp then
    let ts := ev.timestamp
    match prepareElementsInGroup env dst ev ts with
    | (ops1, .err e) => (ops1, .err e)
    | (ops1, .panicked e) => (ops1, .panicked e)
    | (ops1, .ok (gn, eg, dst1)) =>
      match prepareElementsInTable env eg ev ts with
      | (ops2, .err e) => (ops1 ++ ops2, .err e)
      | (ops2, .panicked e) => (ops1 ++ ops2, .panicked e)
      | (ops2, .ok (etIdx, eg1)) =>
        match processElements env etIdx eg1 ev ts with
        | .err e => (ops1 ++ ops2, .err e)
        | .panicked e => (ops1 ++ ops2, .panicked e)
        | .ok eg2 => (ops1 ++ ops2, .ok (setGroup dst1 gn eg2))
  else ([], .err "invalid timestamp")

/-- One incoming message element of the `Rev` batch: an already-typed write
request, a serialized payload, or a value of an unknown type. -/
inductive RevEvent where
  | typed (w : WriteEvent)
  | bytes (b : List Nat)
  | other
deriving DecidableEq

/-- The per-event loop of `Rev`: unknown types and unparsable payloads are
skipped, a `handle` error resets the accumulator to the empty map and
processing continues, a panic propagates. The `handle` step appears once
per event shape, mirroring the `switch` in the Go loop. -/
def revLoop (env : Env) : Groups → List RevEvent → List Op × Res Groups
  | groups, [] => ([], .ok groups)
  | groups, RevEvent.other :: rest => revLoop env groups rest
  | groups, RevEvent.typed w :: rest =>
    (match handle env groups w with
     | (ops, .ok g1) =>
       let r := revLoop env g1 rest
       (ops ++ r.1, r.2)
     | (ops, .err _) =>
       let r := revLoop env ([] : Groups) rest
       (ops ++ r.1, r.2)
     | (ops, .panicked e) => (ops, .panicked e))
  | groups, RevEvent.bytes b :: rest =>
    match env.unmarshal b with
    | none => revLoop env groups rest
    | some w =>
      (match handle env groups w with
       | (ops, .ok g1) =>
         let r := revLoop env g1 rest
         (ops ++ r.1, r.2)
       | (ops, .err _) =>
         let r := revLoop env ([] : Groups) rest
         (ops ++ r.1, r.2)
       | (ops, .panicked e) => (ops, .panicked e))

/-- The flush of one table: commit the staged rows, then write the element
index documents when present (the pooled batch release has no observable
effect and is omitted). -/
def tableFlushOps (es : elementsInTable) : List Op :=
  [Op.mustAddElements es.tsTable es.elements] ++
  (if es.docs.length > 0 then [Op.indexWrite es.tsTable es.docs] else [])

/-- The flush of one group (the body of `for i := range groups` in `Rev`):
tables first; then, only when series documents exist, one `Insert` plus one
`DecRef` per held segment; finally the tsdb tick. -/
def groupFlushOps (g : elementsInGroup) : List Op :=
  ((g.tables.map tableFlushOps).flatten) ++
  (if g.docs.length > 0 then
    (g.segments.map (fun s => [Op.indexInsert s.sid g.docs, Op.decRef s.sid])).flatten
   else []) ++
  [Op.tick g.tsdb g.latestTS]

/-- The flush loop of `Rev` over all accumulated groups. -/
def flushGroups (groups : Groups) : List Op :=
  (groups.map (fun p => groupFlushOps p.2)).flatten

/-- `Rev` (write.go): `none` models a message whose data is not a `[]any`;
a panic inside the loop aborts the call before any flush. The returned list
is the trace of storage operations performed. -/
def Rev (env : Env) : Option (List RevEvent) → List Op
  | none => []
  | some events =>
    if events.length < 1 then []
    else
      match revLoop env ([] : Groups) events with
      | (ops, .ok groups) => ops ++ flushGroups groups
      | (ops, .err _) => ops
      | (ops, .panicked _) => ops

/-- The clamp applied by `setUpWriteCallback` to the configured
`maxDiskUsagePercent`. -/
def setUpWriteCallback (maxDiskUsagePercent : Int) : Int :=
  if maxDiskUsagePercent > 100 then 100 else maxDiskUsagePercent

/-- `CheckHealth` (write.go): `some reason` is the DiskFull error, `none` is
healthy. `diskPercent` stands for the one-call probe
`observability.GetPathUsedPercent`. -/
def CheckHealth (maxDiskUsagePercent diskPercent : Int) : Option String :=
  if maxDiskUsagePercent < 1 then
    some "stream is readonly because stream-max-disk-usage-percent is 0"
  else if diskPercent < maxDiskUsagePercent then none
  else some "disk usage is too high, stop writing"

end Stream

namespace Sched

/-- The scheduler registry state: the `tasks` map (name to parsed schedule)
and the `closed` flag. The per-task goroutines, clocks and metrics are
concurrency and are outside this sequential model of the registry. -/
structure Scheduler where
  tasks : List (String × Nat)
  closed : Bool
deriving DecidableEq

/-- `NewScheduler`. -/
def NewScheduler : Scheduler := { tasks := [], closed := false }

/-- Registry lookup (Go map read). -/
def lookupTask : List (String × Nat) → String → Option Nat
  | [], _ => none
  | (k, v) :: rest, n => if k = n then some v else lookupTask rest n

/-- The outcome of `Scheduler.Register`: the scheduler-closed error, the
duplicated-task error, a cron parse error, or success with the new state. -/
inductive RegisterResult where
  | ok (s : Scheduler)
  | closedErr
  | duplicatedErr
  | parseErr
deriving DecidableEq

/-- `Scheduler.Register` (scheduler file): under the lock, reject when
closed, then reject duplicates, then parse the cron expression (`parse` is
the `cron.NewParser(options).Parse` function, a parameter of the model) and
insert the new task. -/
def Register (parse : Nat → String → Option Nat) (s : Scheduler)
    (name : String) (options : Nat) (expr : String) : RegisterResult :=
  if s.closed then .closedErr
  else if (lookupTask s.tasks name).isSome then .duplicatedErr
  else
    match parse options expr with
    | none => .parseErr
    | some schedule => .ok { s with tasks := s.tasks ++ [(name, schedule)] }

/-- `Scheduler.Close`: set `closed` and delete every task (each task is also
signalled and awaited, which has no registry-visible effect beyond the
deletion). -/
def Close (s : Scheduler) : Scheduler := { s with tasks := [], closed := true }

/-- The self-removal a task goroutine performs when its loop exits
(`delete(s.tasks, name)` under the lock). -/
def taskExit (s : Scheduler) (name : String) : Scheduler :=
  { s with tasks := s.tasks.filter (fun p => !(p.1 == name)) }

/-- One registry transition: a successful registration, a close, or a task
goroutine self-removal. -/
inductive Step (parse : Nat → String → Option Nat) :
    Scheduler → Scheduler → Prop where
  | register (s : Scheduler) (name : String) (options : Nat) (expr : String)
      (s' : Scheduler) (h : Register parse s name options expr = .ok s') :
      Step parse s s'
  | close (s : Scheduler) : Step parse s (Close s)
  | taskExit (s : Scheduler) (name : String) : Step parse s (taskExit s name)

/-- Registry states reachable from `NewScheduler` through the API. -/
inductive Reachable (parse : Nat → String → Option Nat) : Scheduler → Prop where
  | init : Reachable parse NewScheduler
  | step {s s' : Scheduler} : Reachable parse s → Step parse s s' →
      Reachable parse s'

/-- Fixture: a cron parser accepting every expression. -/
def cParse : Nat → String → Option Nat := fun _ _ => some 0

/-- Fixture: the state after registering task `t` on a fresh scheduler. -/
def cSched1 : Scheduler := { tasks := [("t", 0)], closed := false }

end Sched

namespace Stream

/-! Concrete fixtures used by witnesses and counterexamples. -/

/-- A time range containing every timestamp. -/
def cRange : TimeRange := fun _ => true

/-- A schema tag spec: a plain string tag, not indexed-only. -/
def cTagSpecA : TagSpec := { name := "a", typ := .string, indexedOnly := false }

/-- A schema tag family with the single tag `a`. -/
def cFamSpec : TagFamilySpec := { name := "f", tags := [cTagSpecA] }

/-- An index schema with one (empty) per-family rule map and no entity tags. -/
def cIndexSchema : IndexSchema := { tagFamilyTRule := [[]], entitySet := [] }

/-- A stream definition with the single family `f`. -/
def cStream : StreamDef :=
  { schema := { tagFamilies := [cFamSpec] }, indexSchema := cIndexSchema }

/-- A valid write event for group `g`, stream `n`. -/
def cEv : WriteEvent :=
  { shardId := 0, entityValues := [], group := "g", name := "n",
    timestamp := 5, elementId := "e", tagFamilies := [[TagValue.strV "v"]] }

/-- The same event with no tag families: `handle` rejects it in
`processElements`, after the group and table have been prepared. -/
def cBadEv : WriteEvent := { cEv with tagFamilies := [] }

/-- The only segment the concrete environment ever returns. -/
def cSegment : Segment := { sid := 2, timeRange := cRange }

/-- A concrete, well-behaved environment. -/
def cEnv : Env :=
  { tsCheck := fun t => decide (0 < t),
    loadTSDB := fun _ => some 1,
    loadStream := fun _ _ => some cStream,
    createSegmentIfNotExist := fun _ _ => some cSegment,
    createTSTableIfNotExist := fun _ _ => some 3,
    hashStr := fun s => s.length,
    marshalSeries := fun n evs => some (n.length + evs.length, [7]),
    unmarshal := fun b => if b = [1] then some cEv else none }

/-- Fixture: a one-event batch. -/
def cBatch : List RevEvent := [RevEvent.typed cEv]

/-- Fixture: the loop trace of the one-event batch. -/
def cLoopOps : List Op := (revLoop cEnv [] cBatch).1

/-- Fixture: the accumulator the one-event batch builds. -/
def cG : Groups :=
  match (revLoop cEnv [] cBatch).2 with
  | .ok g => g
  | _ => []

/-- Fixture: the accumulator entry of group `g` after the one-event batch. -/
def cEg : elementsInGroup :=
  (lookupGroup cG "g").getD
    { tsdb := 0, tables := [], segments := [], docs := [], docIDsAdded := [],
      latestTS := 0 }

/-- Fixture: the result of handling the valid event on an empty accumulator. -/
def cHandleRes : List Op × Res Groups := handle cEnv [] cEv

/-- Fixture: the accumulator produced by that handling. -/
def cHandleG : Groups :=
  match cHandleRes.2 with
  | .ok g => g
  | _ => []

/-- Fixture: the result of handling the rejected event. -/
def cBadRes : List Op × Res Groups := handle cEnv [] cBadEv

/-- Fixture: the error message of the rejected event. -/
def cBadMsg : String :=
  match cBadRes.2 with
  | .err m => m
  | _ => ""

/-! Trace observation helpers. -/

/-- Recognises a `DecRef` operation. -/
def isDecRefOp : Op → Bool
  | .decRef _ => true
  | _ => false

/-- Recognises a successful segment acquisition
(`CreateSegmentIfNotExist` returning a ref-incremented handle). -/
def isSegmentAcqOp : Op → Bool
  | .createSegment _ _ (some _) => true
  | _ => false

/-- Recognises a `Tick` operation. -/
def isTickOp : Op → Bool
  | .tick _ _ => true
  | _ => false

/-- Recognises a series-index `Insert` operation. -/
def isInsertOp : Op → Bool
  | .indexInsert _ _ => true
  | _ => false

/-- Recognises the operations the per-event loop may emit (everything else
is emitted only by the flush). -/
def isLoopOp : Op → Bool
  | .loadTSDB _ _ => true
  | .createSegment _ _ _ => true
  | .createTSTable _ _ _ => true
  | _ => false

/-- The accumulator entry with one freshly attached table. -/
def withNewTable (eg : elementsInGroup) (seg : Segment) (tid : Nat) :
    elementsInGroup :=
  { eg with tables := eg.tables ++ [newElementsInTable seg tid] }

/-- The accumulator entry with one freshly acquired segment. -/
def withNewSegment (eg : elementsInGroup) (seg : Segment) : elementsInGroup :=
  { eg with segments := eg.segments ++ [seg] }

/-- The element record appended by one successful `processElements` call:
the staged arrays and the element-index document extended in place. -/
def appendedTable (et : elementsInTable) (ts : Int) (eID sid : Nat)
    (tfs : List tagValues) (fields : List Field) : elementsInTable :=
  { et with
    elements :=
      { timestamps := et.elements.timestamps ++ [ts],
        elementIDs := et.elements.elementIDs ++ [eID],
        seriesIDs := et.elements.seriesIDs ++ [sid],
        tagFamilies := et.elements.tagFamilies ++ [tfs] },
    docs := et.docs ++ [{ docID := eID, fields := fields, timestamp := ts }] }

/-- The accumulator entry with table `etIdx` replaced. -/
def setTable (eg : elementsInGroup) (etIdx : Nat) (et : elementsInTable) :
    elementsInGroup :=
  { eg with tables := eg.tables.set etIdx et }

/-- The accumulator entry with one pending series document appended and its
docID recorded in the dedup set. -/
def addSeriesDoc (eg : elementsInGroup) (sid : Nat) (buf : List Nat) :
    elementsInGroup :=
  { eg with
    docs := eg.docs ++ [{ docID := sid, entityValues := some buf }],
    docIDsAdded := eg.docIDsAdded ++ [sid] }

/-- All staged timestamps of a group, across its tables. -/
def groupTimestamps (g : elementsInGroup) : List Int :=
  (g.tables.map (fun t => t.elements.timestamps)).flatten

/-- Occurrences of element id `x` in one table list. -/
def tablesElemCount (x : Nat) : List elementsInTable → Nat
  | [] => 0
  | t :: rest => t.elements.elementIDs.count x + tablesElemCount x rest

/-- Occurrences of element id `x` across the whole accumulator. -/
def elemIDCount (x : Nat) : Groups → Nat
  | [] => 0
  | (_, g) :: rest => tablesElemCount x g.tables + elemIDCount x rest

/-- The `pbv1.ValueType` that `encodeTagValue` assigns for each declared
tag type. -/
def tagTypeToValueType : TagType → ValueType
  | .unspecified => .unknown
  | .int => .int64
  | .string => .str
  | .dataBinary => .binaryData
  | .intArray => .int64Arr
  | .stringArray => .strArr

/-- Whether `processElements` stores a column value for this tag spec:
tags in the entity set or marked indexed-only are omitted from column
storage. -/
def keepTag (entitySet : List String) (t : TagSpec) : Bool :=
  !(t.indexedOnly || entitySet.contains t.name)

/-- Position-indexed enumeration of the remaining tag specs of a family. -/
def enumFrom (j : Nat) : List TagSpec → List (Nat × TagSpec)
  | [] => []
  | t :: rest => (j, t) :: enumFrom (j + 1) rest

/-- The `indexed` flag the inner loop assigns: set exactly when a skipping
rule matches a present (non-sentinel) tag value. -/
def indexedFlag (tfr : List (String × IndexRule)) (tagVal : Option TagValue)
    (t : TagSpec) : Bool :=
  match lookupRule tfr t.name with
  | some r => tagVal.isSome && (r.ruleType == IndexRuleType.skipping)
  | none => false

/-- Modelled from the spec: the declarative description of the column slot
stored for the tag spec at position `j` — the encoded resolved value
carrying the skipping-rule flag. Used to characterise the inner loop of
`processElements`. -/
def tagSlotSpec (tfr : List (String × IndexRule))
    (tagFamily : Option (List TagValue)) (j : Nat) (t : TagSpec) : tagValue :=
  match encodeTagValue t.name t.typ
      ((resolveTag tagFamily j).getD TagValue.null) with
  | some tv => { tv with indexed := indexedFlag tfr (resolveTag tagFamily j) t }
  | none => { tag := t.name }

/-- Environment well-formedness, the storage contracts the spec states for
`CreateSegmentIfNotExist`: the returned segment contains the requested
timestamp, and a segment id determines its time range. -/
def WFEnv (env : Env) : Prop :=
  (∀ tsdb ts seg, env.createSegmentIfNotExist tsdb ts = some seg →
     TimeRange.Contains seg.timeRange ts = true) ∧
  (∀ tsdb ts ts' seg seg', env.createSegmentIfNotExist tsdb ts = some seg →
     env.createSegmentIfNotExist tsdb ts' = some seg' →
     seg.sid = seg'.sid → seg.timeRange = seg'.timeRange)

/-- The timestamp admission policy only accepts non-negative nanosecond
timestamps (the spec's clock-skew policy; needed because a fresh group's
`latestTS` starts at the Go zero value `0`). -/
def TsPos (env : Env) : Prop := ∀ t, env.tsCheck t = true → 0 ≤ t

/-- Per-group invariant maintained by the write path for every entry that
the accumulator holds when `handle` returns successfully. -/
structure GroupInv (env : Env) (g : elementsInGroup) : Prop where
  docs_ne : g.docs ≠ []
  added_eq : g.docIDsAdded = g.docs.map Document.docID
  added_nodup : g.docIDsAdded.Nodup
  ts_le : ∀ t ∈ groupTimestamps g, t ≤ g.latestTS
  ts_mem : g.latestTS ∈ groupTimestamps g
  segs_env : ∀ s ∈ g.segments, ∃ ts0,
    env.createSegmentIfNotExist g.tsdb ts0 = some s
  segs_nodup : (g.segments.map Segment.sid).Nodup

/-- Accumulator invariant: unique group keys, every entry satisfies
`GroupInv`. -/
def GroupsInv (env : Env) (groups : Groups) : Prop :=
  (groups.map Prod.fst).Nodup ∧ ∀ p ∈ groups, GroupInv env p.2

end Stream

namespace Stream

/-! Association-list and trace bookkeeping lemmas. -/

theorem lookupGroup_eq_none_forall {gs : Groups} {gn : String}
    (h : lookupGroup gs gn = none) : ∀ p ∈ gs, p.1 ≠ gn := by
  induction gs with
  | nil => intro p hp; exact absurd hp (List.not_mem_nil p)
  | cons q rest ih =>
    obtain ⟨k, v⟩ := q
    intro p hp
    rw [List.mem_cons] at hp
    by_cases hk : k = gn
    · simp [lookupGroup, hk] at h
    · simp only [lookupGroup, if_neg hk] at h
      rcases hp with hp | hp
      · subst hp; exact hk
      · exact ih h p hp

theorem setGroup_append_of_none {gs : Groups} {gn : String}
    {a b : elementsInGroup} (h : lookupGroup gs gn = none) :
    setGroup (gs ++ [(gn, a)]) gn b = gs ++ [(gn, b)] := by
  induction gs with
  | nil => simp [setGroup]
  | cons q rest ih =>
    obtain ⟨k, v⟩ := q
    by_cases hk : k = gn
    · simp [lookupGroup, hk] at h
    · simp only [lookupGroup, if_neg hk] at h
      simp [setGroup, hk, ih h]

theorem mem_setGroup {gs : Groups} {gn : String} {eg : elementsInGroup}
    {p : String × elementsInGroup} (hp : p ∈ setGroup gs gn eg) :
    p = (gn, eg) ∨ p ∈ gs := by
  induction gs with
  | nil => simp [setGroup] at hp
  | cons q rest ih =>
    obtain ⟨k, v⟩ := q
    by_cases hk : k = gn
    · simp only [setGroup, if_pos hk] at hp
      rw [List.mem_cons] at hp
      rcases hp with hp | hp
      · subst hp; subst hk; exact Or.inl rfl
      · exact Or.inr (List.mem_cons_of_mem _ hp)
    · simp only [setGroup, if_neg hk] at hp
      rw [List.mem_cons] at hp
      rcases hp with hp | hp
      · exact Or.inr (hp ▸ List.mem_cons_self _ _)
      · rcases ih hp with h1 | h1
        · exact Or.inl h1
        · exact Or.inr (List.mem_cons_of_mem _ h1)

theorem keys_setGroup (gs : Groups) (gn : String) (eg : elementsInGroup) :
    (setGroup gs gn eg).map Prod.fst = gs.map Prod.fst := by
  induction gs with
  | nil => rfl
  | cons q rest ih =>
    obtain ⟨k, v⟩ := q
    by_cases hk : k = gn
    · simp [setGroup, hk]
    · simp [setGroup, hk, ih]

theorem lookupGroup_setGroup_self {gs : Groups} {gn : String}
    {eg0 eg : elementsInGroup} (h : lookupGroup gs gn = some eg0) :
    lookupGroup (setGroup gs gn eg) gn = some eg := by
  induction gs with
  | nil => simp [lookupGroup] at h
  | cons q rest ih =>
    obtain ⟨k, v⟩ := q
    by_cases hk : k = gn
    · simp [setGroup, hk, lookupGroup]
    · simp only [lookupGroup, if_neg hk] at h
      simp [setGroup, hk, lookupGroup, ih h]

theorem findSegment_eq_none_forall {segs : List Segment} {ts : Int}
    (h : findSegment segs ts = none) :
    ∀ s ∈ segs, TimeRange.Contains s.timeRange ts = false := by
  induction segs with
  | nil => intro s hs; exact absurd hs (List.not_mem_nil s)
  | cons q rest ih =>
    intro s hs
    rw [List.mem_cons] at hs
    by_cases hq : TimeRange.Contains q.timeRange ts
    · simp [findSegment, hq] at h
    · simp only [findSegment, if_neg hq] at h
      rcases hs with hs | hs
      · subst hs; exact eq_false_of_ne_true hq
      · exact ih h s hs

theorem findSegment_mem {segs : List Segment} {ts : Int} {s : Segment}
    (h : findSegment segs ts = some s) : s ∈ segs := by
  induction segs with
  | nil => simp [findSegment] at h
  | cons q rest ih =>
    by_cases hq : TimeRange.Contains q.timeRange ts
    · simp only [findSegment, if_pos hq, Option.some.injEq] at h
      exact h ▸ List.mem_cons_self _ _
    · simp only [findSegment, if_neg hq] at h
      exact List.mem_cons_of_mem _ (ih h)

theorem findSegment_contains {segs : List Segment} {ts : Int} {s : Segment}
    (h : findSegment segs ts = some s) :
    TimeRange.Contains s.timeRange ts = true := by
  induction segs with
  | nil => simp [findSegment] at h
  | cons q rest ih =>
    by_cases hq : TimeRange.Contains q.timeRange ts
    · simp only [findSegment, if_pos hq, Option.some.injEq] at h
      exact h ▸ hq
    · simp only [findSegment, if_neg hq] at h
      exact ih h

/-! Characterisation of the successful paths through the write pipeline. -/

theorem prepareElementsInGroup_ok_spec {env : Env} {dst : Groups}
    {ev : WriteEvent} {ts : Int} {ops : List Op} {gn : String}
    {eg : elementsInGroup} {dst1 : Groups}
    (h : prepareElementsInGroup env dst ev ts = (ops, .ok (gn, eg, dst1))) :
    gn = ev.group ∧
    ∃ tsdb, env.loadTSDB ev.group = some tsdb ∧
      ops = [Op.loadTSDB ev.group (some tsdb)] ∧
      ((∃ eg0, lookupGroup dst ev.group = some eg0 ∧
          eg = (if eg0.latestTS < ts then { eg0 with latestTS := ts } else eg0) ∧
          dst1 = setGroup dst ev.group eg) ∨
       (lookupGroup dst ev.group = none ∧
          eg = { tsdb := tsdb, tables := [], segments := [], docs := [],
                 docIDsAdded := [], latestTS := max 0 ts } ∧
          dst1 = dst ++ [(ev.group, eg)])) := by
  unfold prepareElementsInGroup at h
  cases hL : env.loadTSDB ev.group with
  | none => simp [hL] at h
  | some tsdb =>
    simp only [hL] at h
    cases hG : lookupGroup dst ev.group with
    | some eg0 =>
      simp only [hG] at h
      simp only [Prod.mk.injEq, Res.ok.injEq] at h
      obtain ⟨hops, hgn, heg, hdst⟩ := h
      refine ⟨hgn.symm, tsdb, rfl, hops.symm, Or.inl ⟨eg0, rfl, heg.symm, ?_⟩⟩
      rw [← hdst, heg]
    | none =>
      simp only [hG] at h
      simp only [Prod.mk.injEq, Res.ok.injEq] at h
      obtain ⟨hops, hgn, heg, hdst⟩ := h
      have hegv : eg = { tsdb := tsdb, tables := [], segments := [], docs := [],
                         docIDsAdded := [], latestTS := max 0 ts } := by
        rw [← heg]
        split
        next hc =>
          have hmax : max (0 : Int) ts = ts := max_eq_right (le_of_lt hc)
          rw [hmax]
        next hc =>
          have hmax : max (0 : Int) ts = 0 :=
            max_eq_left (le_of_not_lt hc)
          rw [hmax]
      refine ⟨hgn.symm, tsdb, rfl, hops.symm, Or.inr ⟨rfl, hegv, ?_⟩⟩
      rw [← hdst, ← heg]
      exact setGroup_append_of_none hG

theorem prepareElementsInTable_ok_spec {env : Env} {eg : elementsInGroup}
    {ev : WriteEvent} {ts : Int} {ops : List Op} {etIdx : Nat}
    {eg1 : elementsInGroup}
    (h : prepareElementsInTable env eg ev ts = (ops, .ok (etIdx, eg1))) :
    (findTableIdx eg.tables ts = some etIdx ∧ ops = [] ∧ eg1 = eg) ∨
    (findTableIdx eg.tables ts = none ∧ ∃ seg tid,
      env.createTSTableIfNotExist seg.sid ev.shardId = some tid ∧
      etIdx = eg.tables.length ∧
      ((findSegment eg.segments ts = some seg ∧
          ops = [Op.createTSTable seg.sid ev.shardId (some tid)] ∧
          eg1 = withNewTable eg seg tid) ∨
       (findSegment eg.segments ts = none ∧
          env.createSegmentIfNotExist eg.tsdb ts = some seg ∧
          ops = [Op.createSegment eg.tsdb ts (some seg.sid),
                 Op.createTSTable seg.sid ev.shardId (some tid)] ∧
          eg1 = withNewTable (withNewSegment eg seg) seg tid))) := by
  unfold prepareElementsInTable at h
  cases hT : findTableIdx eg.tables ts with
  | some i =>
    simp only [hT] at h
    simp only [Prod.mk.injEq, Res.ok.injEq] at h
    obtain ⟨hops, hi, heg⟩ := h
    exact Or.inl ⟨by rw [hi], hops.symm, heg.symm⟩
  | none =>
    simp only [hT] at h
    refine Or.inr ⟨rfl, ?_⟩
    cases hS : findSegment eg.segments ts with
    | some seg =>
      simp only [hS] at h
      cases hC : env.createTSTableIfNotExist seg.sid ev.shardId with
      | none => simp [hC] at h
      | some tid =>
        simp only [hC] at h
        simp only [Prod.mk.injEq, Res.ok.injEq] at h
        obtain ⟨hops, hidx, heg⟩ := h
        exact ⟨seg, tid, hC, hidx.symm, Or.inl ⟨rfl, hops.symm, heg.symm⟩⟩
    | none =>
      simp only [hS] at h
      cases hCS : env.createSegmentIfNotExist eg.tsdb ts with
      | none => simp [hCS] at h
      | some seg =>
        simp only [hCS] at h
        cases hC : env.createTSTableIfNotExist seg.sid ev.shardId with
        | none => simp [hC] at h
        | some tid =>
          simp only [hC] at h
          simp only [Prod.mk.injEq, Res.ok.injEq] at h
          obtain ⟨hops, hidx, heg⟩ := h
          exact ⟨seg, tid, hC, hidx.symm, Or.inr ⟨rfl, rfl, hops.symm, heg.symm⟩⟩

theorem processElements_ok_spec {env : Env} {etIdx : Nat} {eg : elementsInGroup}
    {ev : WriteEvent} {ts : Int} {eg2 : elementsInGroup}
    (h : processElements env etIdx eg ev ts = .ok eg2) :
    ∃ et stm sid buf tfs fields,
      eg.tables[etIdx]? = some et ∧
      env.loadStream ev.group ev.name = some stm ∧
      1 ≤ ev.tagFamilies.length ∧
      ev.tagFamilies.length ≤ stm.schema.tagFamilies.length ∧
      env.marshalSeries ev.name ev.entityValues = some (sid, buf) ∧
      stm.indexSchema.tagFamilyTRule.length = stm.schema.tagFamilies.length ∧
      processTagFamilies stm.indexSchema.entitySet sid
        stm.indexSchema.tagFamilyTRule ev.tagFamilies
        stm.schema.tagFamilies [] [] = .ok (tfs, fields) ∧
      eg2 = (if eg.docIDsAdded.contains sid then
              setTable eg etIdx (appendedTable et ts
                (env.hashStr (ev.name ++ "|" ++ ev.elementId)) sid tfs fields)
             else
              addSeriesDoc (setTable eg etIdx (appendedTable et ts
                (env.hashStr (ev.name ++ "|" ++ ev.elementId)) sid tfs fields))
                sid buf) := by
  unfold processElements at h
  cases hET : eg.tables[etIdx]? with
  | none => simp [hET] at h
  | some et =>
    simp only [hET] at h
    cases hLS : env.loadStream ev.group ev.name with
    | none => simp [hLS] at h
    | some stm =>
      simp only [hLS] at h
      by_cases hf1 : ev.tagFamilies.length < 1
      · rw [if_pos hf1] at h
        exact Res.noConfusion h
      · rw [if_neg hf1] at h
        by_cases hf2 : stm.schema.tagFamilies.length < ev.tagFamilies.length
        · rw [if_pos hf2] at h
          exact Res.noConfusion h
        · rw [if_neg hf2] at h
          cases hMS : env.marshalSeries ev.name ev.entityValues with
          | none => simp [hMS] at h
          | some p =>
            obtain ⟨sid, buf⟩ := p
            simp only [hMS] at h
            by_cases hlen :
              stm.indexSchema.tagFamilyTRule.length ≠ stm.schema.tagFamilies.length
            · rw [if_pos hlen] at h
              exact Res.noConfusion h
            · rw [if_neg hlen] at h
              push_neg at hlen
              cases hPF : processTagFamilies stm.indexSchema.entitySet sid
                  stm.indexSchema.tagFamilyTRule ev.tagFamilies
                  stm.schema.tagFamilies [] [] with
              | panicked e => simp [hPF] at h
              | err e => simp [hPF] at h
              | ok q =>
                obtain ⟨tfs, fields⟩ := q
                simp only [hPF] at h
                refine ⟨et, stm, sid, buf, tfs, fields, rfl, rfl,
                  Nat.not_lt.mp hf1, Nat.not_lt.mp hf2, rfl, hlen, hPF, ?_⟩
                by_cases hct : eg.docIDsAdded.contains sid
                · rw [if_pos hct] at h
                  rw [if_pos hct]
                  injection h with h'
                  subst h'
                  rfl
                · rw [if_neg hct] at h
                  rw [if_neg hct]
                  injection h with h'
                  subst h'
                  rfl

theorem lookupGroup_some_mem {gs : Groups} {gn : String} {eg : elementsInGroup}
    (h : lookupGroup gs gn = some eg) : (gn, eg) ∈ gs := by
  induction gs with
  | nil => simp [lookupGroup] at h
  | cons q rest ih =>
    obtain ⟨k, v⟩ := q
    by_cases hk : k = gn
    · simp only [lookupGroup, if_pos hk, Option.some.injEq] at h
      subst hk; subst h; exact List.mem_cons_self _ _
    · simp only [lookupGroup, if_neg hk] at h
      exact List.mem_cons_of_mem _ (ih h)

theorem lookupGroup_append_self {gs : Groups} {gn : String}
    {eg : elementsInGroup} (h : lookupGroup gs gn = none) :
    lookupGroup (gs ++ [(gn, eg)]) gn = some eg := by
  induction gs with
  | nil => simp [lookupGroup]
  | cons q rest ih =>
    obtain ⟨k, v⟩ := q
    by_cases hk : k = gn
    · simp [lookupGroup, hk] at h
    · simp only [lookupGroup, if_neg hk] at h
      simp only [List.cons_append, lookupGroup, if_neg hk]
      exact ih h

theorem not_mem_keys_of_lookup_none {gs : Groups} {gn : String}
    (h : lookupGroup gs gn = none) : gn ∉ gs.map Prod.fst := by
  intro hmem
  rcases List.mem_map.mp hmem with ⟨p, hp, hfst⟩
  exact lookupGroup_eq_none_forall h p hp hfst

theorem mem_setGroup_of_nodup {gs : Groups} {gn : String}
    {eg0 eg : elementsInGroup} {p : String × elementsInGroup}
    (hnd : (gs.map Prod.fst).Nodup) (hlk : lookupGroup gs gn = some eg0)
    (hp : p ∈ setGroup gs gn eg) : p = (gn, eg) ∨ (p ∈ gs ∧ p.1 ≠ gn) := by
  induction gs with
  | nil => simp [lookupGroup] at hlk
  | cons q rest ih =>
    obtain ⟨k, v⟩ := q
    simp only [List.map_cons, List.nodup_cons] at hnd
    obtain ⟨hknotin, hndrest⟩ := hnd
    by_cases hk : k = gn
    · subst hk
      have hp2 : p ∈ (k, eg) :: rest := by simpa [setGroup] using hp
      rw [List.mem_cons] at hp2
      rcases hp2 with hp2 | hp2
      · exact Or.inl hp2
      · refine Or.inr ⟨List.mem_cons_of_mem _ hp2, ?_⟩
        intro hpk
        exact hknotin (List.mem_map.mpr ⟨p, hp2, hpk⟩)
    · simp only [lookupGroup, if_neg hk] at hlk
      simp only [setGroup, if_neg hk] at hp
      rw [List.mem_cons] at hp
      rcases hp with hp | hp
      · exact Or.inr ⟨hp ▸ List.mem_cons_self _ _, by rw [hp]; exact hk⟩
      · rcases ih hndrest hlk hp with h1 | ⟨h1, h2⟩
        · exact Or.inl h1
        · exact Or.inr ⟨List.mem_cons_of_mem _ h1, h2⟩

theorem getElem?_some_lt {l : List elementsInTable} {i : Nat}
    {et : elementsInTable} (h : l[i]? = some et) : i < l.length := by
  induction l generalizing i with
  | nil => simp at h
  | cons a rest ih =>
    cases i with
    | zero => simp
    | succ j =>
      simp only [List.getElem?_cons_succ] at h
      exact Nat.succ_lt_succ (ih h)

/-! Membership in the flattened timestamp lists of a table list. -/

theorem tsGet_mem {tables : List elementsInTable} {i : Nat}
    {et : elementsInTable} (h : tables[i]? = some et) :
    ∀ x ∈ et.elements.timestamps,
      x ∈ (tables.map (fun t => t.elements.timestamps)).flatten := by
  induction tables generalizing i with
  | nil => simp at h
  | cons a rest ih =>
    intro x hx
    cases i with
    | zero =>
      simp only [List.getElem?_cons_zero, Option.some.injEq] at h
      subst h
      simp only [List.map_cons, List.flatten_cons, List.mem_append]
      exact Or.inl hx
    | succ j =>
      simp only [List.getElem?_cons_succ] at h
      simp only [List.map_cons, List.flatten_cons, List.mem_append]
      exact Or.inr (ih h x hx)

theorem tsSet_mem1 {tables : List elementsInTable} {i : Nat}
    {et' : elementsInTable} :
    ∀ x ∈ ((tables.set i et').map (fun t => t.elements.timestamps)).flatten,
      x ∈ (tables.map (fun t => t.elements.timestamps)).flatten ∨
      x ∈ et'.elements.timestamps := by
  induction tables generalizing i with
  | nil => intro x hx; simp at hx
  | cons a rest ih =>
    intro x hx
    cases i with
    | zero =>
      simp only [List.set_cons_zero, List.map_cons, List.flatten_cons,
        List.mem_append] at hx
      rcases hx with hx | hx
      · exact Or.inr hx
      · simp only [List.map_cons, List.flatten_cons, List.mem_append]
        exact Or.inl (Or.inr hx)
    | succ j =>
      simp only [List.set_cons_succ, List.map_cons, List.flatten_cons,
        List.mem_append] at hx
      rcases hx with hx | hx
      · simp only [List.map_cons, List.flatten_cons, List.mem_append]
        exact Or.inl (Or.inl hx)
      · rcases ih x hx with h1 | h1
        · simp only [List.map_cons, List.flatten_cons, List.mem_append]
          exact Or.inl (Or.inr h1)
        · exact Or.inr h1

theorem tsSet_mem2 {tables : List elementsInTable} {i : Nat}
    {et' : elementsInTable} (hi : i < tables.length) :
    ∀ x ∈ et'.elements.timestamps,
      x ∈ ((tables.set i et').map (fun t => t.elements.timestamps)).flatten := by
  induction tables generalizing i with
  | nil => simp at hi
  | cons a rest ih =>
    intro x hx
    cases i with
    | zero =>
      simp only [List.set_cons_zero, List.map_cons, List.flatten_cons,
        List.mem_append]
      exact Or.inl hx
    | succ j =>
      simp only [List.set_cons_succ, List.map_cons, List.flatten_cons,
        List.mem_append]
      exact Or.inr (ih (Nat.lt_of_succ_lt_succ hi) x hx)

theorem tsSet_mem3 {tables : List elementsInTable} {i : Nat}
    {et et' : elementsInTable} (h : tables[i]? = some et)
    (hsub : ∀ y ∈ et.elements.timestamps, y ∈ et'.elements.timestamps) :
    ∀ x ∈ (tables.map (fun t => t.elements.timestamps)).flatten,
      x ∈ ((tables.set i et').map (fun t => t.elements.timestamps)).flatten := by
  induction tables generalizing i with
  | nil => intro x hx; simp at hx
  | cons a rest ih =>
    intro x hx
    simp only [List.map_cons, List.flatten_cons, List.mem_append] at hx
    cases i with
    | zero =>
      simp only [List.getElem?_cons_zero, Option.some.injEq] at h
      subst h
      simp only [List.set_cons_zero, List.map_cons, List.flatten_cons,
        List.mem_append]
      rcases hx with hx | hx
      · exact Or.inl (hsub x hx)
      · exact Or.inr hx
    | succ j =>
      simp only [List.getElem?_cons_succ] at h
      simp only [List.set_cons_succ, List.map_cons, List.flatten_cons,
        List.mem_append]
      rcases hx with hx | hx
      · exact Or.inl hx
      · exact Or.inr (ih h x hx)

theorem tsApp_mem {tables : List elementsInTable} {et : elementsInTable}
    {x : Int} :
    (x ∈ ((tables ++ [et]).map (fun t => t.elements.timestamps)).flatten) ↔
    (x ∈ (tables.map (fun t => t.elements.timestamps)).flatten ∨
     x ∈ et.elements.timestamps) := by
  simp [List.map_append, List.flatten_append]

theorem handle_ok_spec {env : Env} {dst : Groups} {ev : WriteEvent}
    {ops : List Op} {dst' : Groups}
    (h : handle env dst ev = (ops, .ok dst')) :
    env.tsCheck ev.timestamp = true ∧
    ∃ ops1 ops2 gn eg dst1 etIdx eg1 eg2,
      prepareElementsInGroup env dst ev ev.timestamp = (ops1, .ok (gn, eg, dst1)) ∧
      prepareElementsInTable env eg ev ev.timestamp = (ops2, .ok (etIdx, eg1)) ∧
      processElements env etIdx eg1 ev ev.timestamp = .ok eg2 ∧
      ops = ops1 ++ ops2 ∧ dst' = setGroup dst1 gn eg2 := by
  unfold handle at h
  by_cases hts : env.tsCheck ev.timestamp = true
  case neg =>
    rw [if_neg hts] at h
    simp at h
  case pos =>
    rw [if_pos hts] at h
    refine ⟨hts, ?_⟩
    cases h1 : prepareElementsInGroup env dst ev ev.timestamp with
    | mk ops1 r1 =>
      simp only [h1] at h
      cases r1 with
      | err e => simp at h
      | panicked e => simp at h
      | ok v =>
        obtain ⟨gn, eg, dst1⟩ := v
        cases h2 : prepareElementsInTable env eg ev ev.timestamp with
        | mk ops2 r2 =>
          simp only [h2] at h
          cases r2 with
          | err e => simp at h
          | panicked e => simp at h
          | ok w =>
            obtain ⟨etIdx, eg1⟩ := w
            cases h3 : processElements env etIdx eg1 ev ev.timestamp with
            | err e => simp [h3] at h
            | panicked e => simp [h3] at h
            | ok eg2 =>
              simp only [h3] at h
              simp only [Prod.mk.injEq, Res.ok.injEq] at h
              obtain ⟨hops, hdst⟩ := h
              exact ⟨ops1, ops2, gn, eg, dst1, etIdx, eg1, eg2, rfl, h2, h3,
                hops.symm, hdst.symm⟩

theorem contains_eq_true_iff {l : List Nat} {x : Nat} :
    l.contains x = true ↔ x ∈ l := by
  simp

theorem nodup_append_singleton {l : List Nat} {a : Nat}
    (h1 : l.Nodup) (h2 : a ∉ l) : (l ++ [a]).Nodup := by
  rw [List.nodup_append]
  refine ⟨h1, List.nodup_singleton a, ?_⟩
  intro x hx hxa
  rw [List.mem_singleton] at hxa
  exact h2 (hxa ▸ hx)

theorem handle_ok_inv {env : Env} {dst : Groups} {ev : WriteEvent}
    {ops : List Op} {dst' : Groups}
    (hWF : WFEnv env) (hTs : TsPos env) (hInv : GroupsInv env dst)
    (h : handle env dst ev = (ops, .ok dst')) : GroupsInv env dst' := by
  obtain ⟨hts, ops1, ops2, gn, eg, dst1, etIdx, eg1, eg2, hPG, hPT, hPE, hops,
    hdst'⟩ := handle_ok_spec h
  have hts0 : (0 : Int) ≤ ev.timestamp := hTs _ hts
  obtain ⟨hgn, tsdb, hL, hops1, hcase⟩ := prepareElementsInGroup_ok_spec hPG
  subst hgn
  -- Stage 1: facts about `eg` and `dst1`.
  have hstage1 :
      (eg.docIDsAdded = eg.docs.map Document.docID) ∧
      eg.docIDsAdded.Nodup ∧
      (∀ t ∈ groupTimestamps eg, t ≤ eg.latestTS) ∧
      (eg.latestTS ∈ groupTimestamps eg ∨ eg.latestTS = ev.timestamp) ∧
      ev.timestamp ≤ eg.latestTS ∧
      (∀ s ∈ eg.segments, ∃ ts0,
        env.createSegmentIfNotExist eg.tsdb ts0 = some s) ∧
      (eg.segments.map Segment.sid).Nodup ∧
      lookupGroup dst1 ev.group = some eg ∧
      (dst1.map Prod.fst).Nodup ∧
      (∀ p ∈ dst1, p.1 ≠ ev.group → GroupInv env p.2) := by
    rcases hcase with ⟨eg0, hlk, hegdef, hdst1⟩ | ⟨hlk, hegdef, hdst1⟩
    · -- existing group
      have hinv0 : GroupInv env eg0 := hInv.2 _ (lookupGroup_some_mem hlk)
      have htab : eg.tables = eg0.tables := by rw [hegdef]; split <;> rfl
      have hdocs : eg.docs = eg0.docs := by rw [hegdef]; split <;> rfl
      have hadd : eg.docIDsAdded = eg0.docIDsAdded := by
        rw [hegdef]; split <;> rfl
      have hsegs : eg.segments = eg0.segments := by rw [hegdef]; split <;> rfl
      have htsdb : eg.tsdb = eg0.tsdb := by rw [hegdef]; split <;> rfl
      have hTSeq : groupTimestamps eg = groupTimestamps eg0 := by
        unfold groupTimestamps; rw [htab]
      have hlat0 : eg0.latestTS ≤ eg.latestTS := by
        rw [hegdef]; split
        next hb => exact le_of_lt hb
        next hb => exact le_refl _
      have hlatts : ev.timestamp ≤ eg.latestTS := by
        rw [hegdef]; split
        next hb => exact le_refl _
        next hb => exact le_of_not_lt hb
      have hlatmem :
          eg.latestTS ∈ groupTimestamps eg ∨ eg.latestTS = ev.timestamp := by
        rw [hegdef]; split
        next hb => exact Or.inr rfl
        next hb => exact Or.inl hinv0.ts_mem
      refine ⟨?_, ?_, ?_, hlatmem, hlatts, ?_, ?_, ?_, ?_, ?_⟩
      · rw [hadd, hdocs]; exact hinv0.added_eq
      · rw [hadd]; exact hinv0.added_nodup
      · intro t ht
        rw [hTSeq] at ht
        exact le_trans (hinv0.ts_le t ht) hlat0
      · rw [hsegs, htsdb]; exact hinv0.segs_env
      · rw [hsegs]; exact hinv0.segs_nodup
      · rw [hdst1]; exact lookupGroup_setGroup_self hlk
      · rw [hdst1, keys_setGroup]; exact hInv.1
      · intro p hp hpne
        rw [hdst1] at hp
        rcases mem_setGroup_of_nodup hInv.1 hlk hp with h1 | ⟨h1, _⟩
        · exact absurd (by rw [h1]) hpne
        · exact hInv.2 _ h1
    · -- fresh group
      subst hegdef
      have hmax : max (0 : Int) ev.timestamp = ev.timestamp :=
        max_eq_right hts0
      refine ⟨rfl, List.nodup_nil, ?_, Or.inr hmax, ?_, ?_, List.nodup_nil,
        ?_, ?_, ?_⟩
      · intro t ht; simp [groupTimestamps] at ht
      · simp only [hmax]; exact le_refl _
      · intro s hs; exact absurd hs (List.not_mem_nil s)
      · rw [hdst1]; exact lookupGroup_append_self hlk
      · rw [hdst1, List.map_append]
        rw [List.nodup_append]
        refine ⟨hInv.1, List.nodup_singleton _, ?_⟩
        intro x hx hx2
        simp only [List.map_cons, List.map_nil, List.mem_singleton] at hx2
        exact not_mem_keys_of_lookup_none hlk (hx2 ▸ hx)
      · intro p hp hpne
        rw [hdst1] at hp
        rcases List.mem_append.mp hp with hp | hp
        · exact hInv.2 _ hp
        · rw [List.mem_singleton] at hp
          exact absurd (by rw [hp]) hpne
  obtain ⟨P_add, P_nodup, P_tsle, P_tsmem, P_tsge, P_segenv, P_segnodup,
    F1, K1, K2⟩ := hstage1
  -- Stage 2: facts about `eg1`.
  have hstage2 :
      eg1.docIDsAdded = eg.docIDsAdded ∧
      eg1.docs = eg.docs ∧
      eg1.latestTS = eg.latestTS ∧
      eg1.tsdb = eg.tsdb ∧
      (∀ x ∈ groupTimestamps eg1, x ∈ groupTimestamps eg) ∧
      (∀ x ∈ groupTimestamps eg, x ∈ groupTimestamps eg1) ∧
      (∀ s ∈ eg1.segments, ∃ ts0,
        env.createSegmentIfNotExist eg1.tsdb ts0 = some s) ∧
      (eg1.segments.map Segment.sid).Nodup := by
    rcases prepareElementsInTable_ok_spec hPT with ⟨hfind, hops2, heg1⟩ |
      ⟨hfind, seg, tid, hC, hidx, ⟨hfs, hops2, heg1⟩ | ⟨hfs, hCS, hops2, heg1⟩⟩
    · subst heg1
      exact ⟨rfl, rfl, rfl, rfl, fun x hx => hx, fun x hx => hx, P_segenv,
        P_segnodup⟩
    · subst heg1
      have hTSiff : ∀ x, x ∈ groupTimestamps (withNewTable eg seg tid) ↔
          x ∈ groupTimestamps eg := by
        intro x
        unfold groupTimestamps withNewTable
        rw [tsApp_mem]
        simp [newElementsInTable, emptyElements]
      exact ⟨rfl, rfl, rfl, rfl, fun x hx => (hTSiff x).mp hx,
        fun x hx => (hTSiff x).mpr hx, P_segenv, P_segnodup⟩
    · subst heg1
      have hTSiff : ∀ x,
          x ∈ groupTimestamps (withNewTable (withNewSegment eg seg) seg tid) ↔
          x ∈ groupTimestamps eg := by
        intro x
        unfold groupTimestamps withNewTable withNewSegment
        rw [tsApp_mem]
        simp [newElementsInTable, emptyElements]
      have hsegs :
          (withNewTable (withNewSegment eg seg) seg tid).segments =
          eg.segments ++ [seg] := rfl
      have hnotin : seg.sid ∉ eg.segments.map Segment.sid := by
        intro hmem
        rcases List.mem_map.mp hmem with ⟨s, hs, hsid⟩
        obtain ⟨ts0, hs0⟩ := P_segenv s hs
        have hrange : s.timeRange = seg.timeRange :=
          hWF.2 _ _ _ _ _ hs0 hCS hsid
        have hcont : TimeRange.Contains seg.timeRange ev.timestamp = true :=
          hWF.1 _ _ _ hCS
        have hncont : TimeRange.Contains s.timeRange ev.timestamp = false :=
          findSegment_eq_none_forall hfs s hs
        rw [hrange, hcont] at hncont
        exact Bool.noConfusion hncont
      refine ⟨rfl, rfl, rfl, rfl, fun x hx => (hTSiff x).mp hx,
        fun x hx => (hTSiff x).mpr hx, ?_, ?_⟩
      · intro s hs
        rw [hsegs] at hs
        rcases List.mem_append.mp hs with hs | hs
        · exact P_segenv s hs
        · rw [List.mem_singleton] at hs
          exact ⟨ev.timestamp, hs ▸ hCS⟩
      · rw [hsegs, List.map_append]
        exact nodup_append_singleton P_segnodup hnotin
  obtain ⟨Q_add, Q_docs, Q_lat, Q_tsdb, Q_ts1, Q_ts2, Q_segenv, Q_segnodup⟩ :=
    hstage2
  -- Stage 3: `GroupInv` for `eg2`.
  obtain ⟨et, stm, sid, buf, tfs, fields, hET, hLS, hf1, hf2, hMS, hlen, hPF,
    heg2⟩ := processElements_ok_spec hPE
  have hlt : etIdx < eg1.tables.length := getElem?_some_lt hET
  set eID := env.hashStr (ev.name ++ "|" ++ ev.elementId) with heID
  set et1 := appendedTable et ev.timestamp eID sid tfs fields with het1
  have hts_sub : ∀ y ∈ et.elements.timestamps, y ∈ et1.elements.timestamps :=
    fun y hy => List.mem_append_left _ hy
  have htsin : ev.timestamp ∈ et1.elements.timestamps :=
    List.mem_append_right _ (List.mem_singleton.mpr rfl)
  have hinv2 : GroupInv env eg2 := by
    have hts_le2 : ∀ t ∈ groupTimestamps (setTable eg1 etIdx et1),
        t ≤ eg1.latestTS := by
      intro x hx
      have hx2 : x ∈ ((eg1.tables.set etIdx et1).map
          (fun t => t.elements.timestamps)).flatten := hx
      rcases tsSet_mem1 x hx2 with hx3 | hx3
      · rw [Q_lat]
        exact P_tsle x (Q_ts1 x hx3)
      · rcases List.mem_append.mp hx3 with hx4 | hx4
        · rw [Q_lat]
          exact P_tsle x (Q_ts1 x (tsGet_mem hET x hx4))
        · rw [List.mem_singleton] at hx4
          rw [hx4, Q_lat]
          exact P_tsge
    have hts_mem2 : eg1.latestTS ∈ groupTimestamps (setTable eg1 etIdx et1) := by
      rw [Q_lat]
      rcases P_tsmem with hm | hm
      · have hm1 : eg.latestTS ∈ groupTimestamps eg1 := Q_ts2 _ hm
        exact tsSet_mem3 hET hts_sub _ hm1
      · rw [hm]
        exact tsSet_mem2 hlt _ htsin
    by_cases hct : eg1.docIDsAdded.contains sid
    · rw [if_pos hct] at heg2
      subst heg2
      have hsidmem : sid ∈ eg1.docIDsAdded := contains_eq_true_iff.mp hct
      refine ⟨?_, ?_, ?_, ?_, ?_, ?_, ?_⟩
      · -- docs nonempty
        rw [Q_add, P_add] at hsidmem
        rcases List.mem_map.mp hsidmem with ⟨d, hd, _⟩
        rw [← Q_docs] at hd
        exact List.ne_nil_of_mem hd
      · show eg1.docIDsAdded = eg1.docs.map Document.docID
        rw [Q_add, P_add, ← Q_docs]
      · show eg1.docIDsAdded.Nodup
        rw [Q_add]; exact P_nodup
      · exact hts_le2
      · exact hts_mem2
      · exact Q_segenv
      · exact Q_segnodup
    · rw [if_neg hct] at heg2
      subst heg2
      have hsidnot : sid ∉ eg1.docIDsAdded := by
        intro hmem
        exact hct (contains_eq_true_iff.mpr hmem)
      refine ⟨?_, ?_, ?_, ?_, ?_, ?_, ?_⟩
      · simp [addSeriesDoc]
      · show eg1.docIDsAdded ++ [sid] =
          (eg1.docs ++
            [({ docID := sid, entityValues := some buf } : Document)]).map
            Document.docID
        rw [List.map_append, Q_add, P_add, ← Q_docs]
        rfl
      · show (eg1.docIDsAdded ++ [sid]).Nodup
        refine nodup_append_singleton ?_ hsidnot
        rw [Q_add]; exact P_nodup
      · exact hts_le2
      · exact hts_mem2
      · exact Q_segenv
      · exact Q_segnodup
  -- Final assembly.
  subst hdst'
  constructor
  · rw [keys_setGroup]; exact K1
  · intro p hp
    rcases mem_setGroup_of_nodup K1 F1 hp with h1 | ⟨h1, h2⟩
    · rw [h1]; exact hinv2
    · exact K2 p h1 h2

theorem GroupsInv_nil (env : Env) : GroupsInv env [] :=
  ⟨List.nodup_nil, fun p hp => absurd hp (List.not_mem_nil p)⟩

theorem revLoop_ok_inv {env : Env} (hWF : WFEnv env) (hTs : TsPos env) :
    ∀ {evs : List RevEvent} {groups : Groups} {ops : List Op} {G : Groups},
      GroupsInv env groups → revLoop env groups evs = (ops, .ok G) →
      GroupsInv env G := by
  intro evs
  induction evs with
  | nil =>
    intro groups ops G hInv h
    unfold revLoop at h
    simp only [Prod.mk.injEq, Res.ok.injEq] at h
    exact h.2 ▸ hInv
  | cons e rest ih =>
    intro groups ops G hInv h
    cases e with
    | other =>
      rw [show revLoop env groups (RevEvent.other :: rest) =
        revLoop env groups rest from rfl] at h
      exact ih hInv h
    | typed w =>
      unfold revLoop at h
      cases hh : handle env groups w with
      | mk opsH rH =>
        simp only [hh] at h
        cases rH with
        | ok g1 =>
          cases hr : revLoop env g1 rest with
          | mk ops2 r2 =>
            simp only [hr] at h
            simp only [Prod.mk.injEq] at h
            obtain ⟨-, h2⟩ := h
            rw [h2] at hr
            exact ih (handle_ok_inv hWF hTs hInv hh) hr
        | err e1 =>
          cases hr : revLoop env ([] : Groups) rest with
          | mk ops2 r2 =>
            simp only [hr] at h
            simp only [Prod.mk.injEq] at h
            obtain ⟨-, h2⟩ := h
            rw [h2] at hr
            exact ih (GroupsInv_nil env) hr
        | panicked e1 => simp at h
    | bytes b =>
      unfold revLoop at h
      cases hu : env.unmarshal b with
      | none =>
        simp only [hu] at h
        exact ih hInv h
      | some w =>
        simp only [hu] at h
        cases hh : handle env groups w with
        | mk opsH rH =>
          simp only [hh] at h
          cases rH with
          | ok g1 =>
            cases hr : revLoop env g1 rest with
            | mk ops2 r2 =>
              simp only [hr] at h
              simp only [Prod.mk.injEq] at h
              obtain ⟨-, h2⟩ := h
              rw [h2] at hr
              exact ih (handle_ok_inv hWF hTs hInv hh) hr
          | err e1 =>
            cases hr : revLoop env ([] : Groups) rest with
            | mk ops2 r2 =>
              simp only [hr] at h
              simp only [Prod.mk.injEq] at h
              obtain ⟨-, h2⟩ := h
              rw [h2] at hr
              exact ih (GroupsInv_nil env) hr
          | panicked e1 => simp at h

/-! The per-event loop only performs load and create operations; flush
operations (row commits, index writes, DecRef, Tick) appear only in the
flush phase. -/

theorem prepareElementsInGroup_ops {env : Env} {dst : Groups}
    {ev : WriteEvent} {ts : Int} {ops : List Op}
    {r : Res (String × elementsInGroup × Groups)}
    (h : prepareElementsInGroup env dst ev ts = (ops, r)) :
    ∀ o ∈ ops, isLoopOp o = true := by
  unfold prepareElementsInGroup at h
  cases hL : env.loadTSDB ev.group with
  | none =>
    simp only [hL] at h
    cases h
    simp [isLoopOp]
  | some tsdb =>
    simp only [hL] at h
    cases hG : lookupGroup dst ev.group with
    | some eg0 =>
      simp only [hG] at h
      cases h
      simp [isLoopOp]
    | none =>
      simp only [hG] at h
      cases h
      simp [isLoopOp]

theorem prepareElementsInTable_ops {env : Env} {eg : elementsInGroup}
    {ev : WriteEvent} {ts : Int} {ops : List Op}
    {r : Res (Nat × elementsInGroup)}
    (h : prepareElementsInTable env eg ev ts = (ops, r)) :
    ∀ o ∈ ops, isLoopOp o = true := by
  unfold prepareElementsInTable at h
  cases hT : findTableIdx eg.tables ts with
  | some i =>
    simp only [hT] at h
    cases h
    simp
  | none =>
    simp only [hT] at h
    cases hS : findSegment eg.segments ts with
    | some seg =>
      simp only [hS] at h
      cases hC : env.createTSTableIfNotExist seg.sid ev.shardId with
      | none => simp only [hC] at h; cases h; simp [isLoopOp]
      | some tid => simp only [hC] at h; cases h; simp [isLoopOp]
    | none =>
      simp only [hS] at h
      cases hCS : env.createSegmentIfNotExist eg.tsdb ts with
      | none => simp only [hCS] at h; cases h; simp [isLoopOp]
      | some seg =>
        simp only [hCS] at h
        cases hC : env.createTSTableIfNotExist seg.sid ev.shardId with
        | none => simp only [hC] at h; cases h; simp [isLoopOp]
        | some tid => simp only [hC] at h; cases h; simp [isLoopOp]

theorem handle_ops {env : Env} {dst : Groups} {ev : WriteEvent}
    {ops : List Op} {r : Res Groups}
    (h : handle env dst ev = (ops, r)) : ∀ o ∈ ops, isLoopOp o = true := by
  unfold handle at h
  by_cases hts : env.tsCheck ev.timestamp = true
  case neg =>
    rw [if_neg hts] at h
    cases h
    simp
  case pos =>
    rw [if_pos hts] at h
    cases h1 : prepareElementsInGroup env dst ev ev.timestamp with
    | mk ops1 r1 =>
      simp only [h1] at h
      have H1 := prepareElementsInGroup_ops h1
      cases r1 with
      | err e => cases h; exact H1
      | panicked e => cases h; exact H1
      | ok v =>
        obtain ⟨gn, eg, dst1⟩ := v
        cases h2 : prepareElementsInTable env eg ev ev.timestamp with
        | mk ops2 r2 =>
          simp only [h2] at h
          have H2 := prepareElementsInTable_ops h2
          have Happ : ∀ o ∈ ops1 ++ ops2, isLoopOp o = true := by
            intro o ho
            rcases List.mem_append.mp ho with ho | ho
            · exact H1 o ho
            · exact H2 o ho
          cases r2 with
          | err e => cases h; exact Happ
          | panicked e => cases h; exact Happ
          | ok w =>
            obtain ⟨etIdx, eg1⟩ := w
            cases h3 : processElements env etIdx eg1 ev ev.timestamp with
            | err e => simp only [h3] at h; cases h; exact Happ
            | panicked e => simp only [h3] at h; cases h; exact Happ
            | ok eg2 => simp only [h3] at h; cases h; exact Happ

theorem revLoop_ops {env : Env} :
    ∀ {evs : List RevEvent} {groups : Groups} {ops : List Op} {r : Res Groups},
      revLoop env groups evs = (ops, r) → ∀ o ∈ ops, isLoopOp o = true := by
  intro evs
  induction evs with
  | nil =>
    intro groups ops r h
    cases h
    simp
  | cons e rest ih =>
    intro groups ops r h
    cases e with
    | other =>
      rw [show revLoop env groups (RevEvent.other :: rest) =
        revLoop env groups rest from rfl] at h
      exact ih h
    | typed w =>
      unfold revLoop at h
      cases hh : handle env groups w with
      | mk opsH rH =>
        simp only [hh] at h
        cases rH with
        | ok g1 =>
          cases hr : revLoop env g1 rest with
          | mk ops2 r2 =>
            simp only [hr] at h
            cases h
            intro o ho
            rcases List.mem_append.mp ho with ho | ho
            · exact handle_ops hh o ho
            · exact ih hr o ho
        | err e1 =>
          cases hr : revLoop env ([] : Groups) rest with
          | mk ops2 r2 =>
            simp only [hr] at h
            cases h
            intro o ho
            rcases List.mem_append.mp ho with ho | ho
            · exact handle_ops hh o ho
            · exact ih hr o ho
        | panicked e1 =>
          cases h
          exact handle_ops hh
    | bytes b =>
      unfold revLoop at h
      cases hu : env.unmarshal b with
      | none =>
        simp only [hu] at h
        exact ih h
      | some w =>
        simp only [hu] at h
        cases hh : handle env groups w with
        | mk opsH rH =>
          simp only [hh] at h
          cases rH with
          | ok g1 =>
            cases hr : revLoop env g1 rest with
            | mk ops2 r2 =>
              simp only [hr] at h
              cases h
              intro o ho
              rcases List.mem_append.mp ho with ho | ho
              · exact handle_ops hh o ho
              · exact ih hr o ho
          | err e1 =>
            cases hr : revLoop env ([] : Groups) rest with
            | mk ops2 r2 =>
              simp only [hr] at h
              cases h
              intro o ho
              rcases List.mem_append.mp ho with ho | ho
              · exact handle_ops hh o ho
              · exact ih hr o ho
          | panicked e1 =>
            cases h
            exact handle_ops hh

theorem filter_eq_nil_of_loopOps {ops : List Op}
    (h : ∀ o ∈ ops, isLoopOp o = true) {p : Op → Bool}
    (hp : ∀ o, isLoopOp o = true → p o = false) : ops.filter p = [] := by
  induction ops with
  | nil => rfl
  | cons a rest ih =>
    have ha := hp a (h a (List.mem_cons_self _ _))
    have hrest := ih (fun o ho => h o (List.mem_cons_of_mem _ ho))
    simp [List.filter_cons, ha, hrest]

theorem loopOp_not_decRef : ∀ o : Op, isLoopOp o = true → isDecRefOp o = false := by
  intro o ho
  cases o <;> first | rfl | exact absurd ho (by simp [isLoopOp])

theorem loopOp_not_tick : ∀ o : Op, isLoopOp o = true → isTickOp o = false := by
  intro o ho
  cases o <;> first | rfl | exact absurd ho (by simp [isLoopOp])

theorem loopOp_not_insert : ∀ o : Op, isLoopOp o = true → isInsertOp o = false := by
  intro o ho
  cases o <;> first | rfl | exact absurd ho (by simp [isLoopOp])

/-! Filters over the flush trace of one group. -/

theorem tables_flush_filter {tables : List elementsInTable} {p : Op → Bool}
    (hmust : ∀ t e, p (Op.mustAddElements t e) = false)
    (hwrite : ∀ t d, p (Op.indexWrite t d) = false) :
    ((tables.map tableFlushOps).flatten).filter p = [] := by
  induction tables with
  | nil => rfl
  | cons a rest ih =>
    simp only [List.map_cons, List.flatten_cons, List.filter_append]
    rw [ih]
    unfold tableFlushOps
    by_cases hd : a.docs.length > 0
    · rw [if_pos hd]
      simp [List.filter_cons, hmust, hwrite]
    · rw [if_neg hd]
      simp [List.filter_cons, hmust]

theorem segs_flush_filter_decRef {segs : List Segment} {docs : List Document} :
    (((segs.map (fun s => [Op.indexInsert s.sid docs, Op.decRef s.sid])).flatten).filter
      isDecRefOp) = segs.map (fun s => Op.decRef s.sid) := by
  induction segs with
  | nil => rfl
  | cons a rest ih =>
    simp only [List.map_cons, List.flatten_cons, List.filter_append]
    rw [ih]
    simp [List.filter_cons, isDecRefOp]

theorem segs_flush_filter_insert {segs : List Segment} {docs : List Document} :
    (((segs.map (fun s => [Op.indexInsert s.sid docs, Op.decRef s.sid])).flatten).filter
      isInsertOp) = segs.map (fun s => Op.indexInsert s.sid docs) := by
  induction segs with
  | nil => rfl
  | cons a rest ih =>
    simp only [List.map_cons, List.flatten_cons, List.filter_append]
    rw [ih]
    simp [List.filter_cons, isInsertOp]

theorem segs_flush_filter_tick {segs : List Segment} {docs : List Document} :
    (((segs.map (fun s => [Op.indexInsert s.sid docs, Op.decRef s.sid])).flatten).filter
      isTickOp) = [] := by
  induction segs with
  | nil => rfl
  | cons a rest ih =>
    simp only [List.map_cons, List.flatten_cons, List.filter_append]
    rw [ih]
    simp [List.filter_cons, isTickOp]

theorem groupFlushOps_filter_decRef {g : elementsInGroup} (hdocs : g.docs ≠ []) :
    (groupFlushOps g).filter isDecRefOp =
      g.segments.map (fun s => Op.decRef s.sid) := by
  unfold groupFlushOps
  rw [if_pos (by
    have := List.length_pos.mpr hdocs
    omega)]
  simp only [List.filter_append]
  rw [tables_flush_filter (fun t e => rfl) (fun t d => rfl)]
  rw [segs_flush_filter_decRef]
  simp [isDecRefOp]

theorem groupFlushOps_filter_insert {g : elementsInGroup} (hdocs : g.docs ≠ []) :
    (groupFlushOps g).filter isInsertOp =
      g.segments.map (fun s => Op.indexInsert s.sid g.docs) := by
  unfold groupFlushOps
  rw [if_pos (by
    have := List.length_pos.mpr hdocs
    omega)]
  simp only [List.filter_append]
  rw [tables_flush_filter (fun t e => rfl) (fun t d => rfl)]
  rw [segs_flush_filter_insert]
  simp [isInsertOp]

theorem groupFlushOps_filter_tick (g : elementsInGroup) :
    (groupFlushOps g).filter isTickOp = [Op.tick g.tsdb g.latestTS] := by
  unfold groupFlushOps
  by_cases hd : g.docs.length > 0
  · rw [if_pos hd]
    simp only [List.filter_append]
    rw [tables_flush_filter (fun t e => rfl) (fun t d => rfl)]
    rw [segs_flush_filter_tick]
    simp [isTickOp]
  · rw [if_neg hd]
    simp only [List.filter_append]
    rw [tables_flush_filter (fun t e => rfl) (fun t d => rfl)]
    simp [isTickOp]

theorem groupFlushOps_getLast (g : elementsInGroup) :
    (groupFlushOps g).getLast? = some (Op.tick g.tsdb g.latestTS) := by
  unfold groupFlushOps
  rw [List.getLast?_concat]

theorem flushGroups_filter_tick (G : Groups) :
    (flushGroups G).filter isTickOp =
      G.map (fun p => Op.tick p.2.tsdb p.2.latestTS) := by
  induction G with
  | nil => rfl
  | cons a rest ih =>
    unfold flushGroups at ih ⊢
    simp only [List.map_cons, List.flatten_cons, List.filter_append]
    rw [ih, groupFlushOps_filter_tick]
    rfl

/-! Step equations for the loop, then decomposition of the loop over an
event-list split, and of `Rev`. -/

theorem revLoop_typed_ok {env : Env} {groups : Groups} {w : WriteEvent}
    {rest : List RevEvent} {opsH : List Op} {g1 : Groups}
    (hh : handle env groups w = (opsH, Res.ok g1)) :
    revLoop env groups (RevEvent.typed w :: rest) =
      (opsH ++ (revLoop env g1 rest).1, (revLoop env g1 rest).2) := by
  conv_lhs => unfold revLoop
  rw [hh]

theorem revLoop_typed_err {env : Env} {groups : Groups} {w : WriteEvent}
    {rest : List RevEvent} {opsH : List Op} {msg : String}
    (hh : handle env groups w = (opsH, Res.err msg)) :
    revLoop env groups (RevEvent.typed w :: rest) =
      (opsH ++ (revLoop env ([] : Groups) rest).1,
       (revLoop env ([] : Groups) rest).2) := by
  conv_lhs => unfold revLoop
  rw [hh]

theorem revLoop_typed_panicked {env : Env} {groups : Groups} {w : WriteEvent}
    {rest : List RevEvent} {opsH : List Op} {msg : String}
    (hh : handle env groups w = (opsH, Res.panicked msg)) :
    revLoop env groups (RevEvent.typed w :: rest) = (opsH, Res.panicked msg) := by
  conv_lhs => unfold revLoop
  rw [hh]

theorem revLoop_bytes_none {env : Env} {groups : Groups} {b : List Nat}
    {rest : List RevEvent} (hu : env.unmarshal b = none) :
    revLoop env groups (RevEvent.bytes b :: rest) =
      revLoop env groups rest := by
  conv_lhs => unfold revLoop
  rw [hu]

theorem revLoop_bytes_some {env : Env} {groups : Groups} {b : List Nat}
    {w : WriteEvent} {rest : List RevEvent} (hu : env.unmarshal b = some w) :
    revLoop env groups (RevEvent.bytes b :: rest) =
      revLoop env groups (RevEvent.typed w :: rest) := by
  conv_lhs => unfold revLoop
  rw [hu]
  conv_rhs => unfold revLoop

theorem revLoop_append {env : Env} {ys : List RevEvent} :
    ∀ {xs : List RevEvent} {groups G : Groups} {ops : List Op},
      revLoop env groups xs = (ops, .ok G) →
      revLoop env groups (xs ++ ys) =
        (ops ++ (revLoop env G ys).1, (revLoop env G ys).2) := by
  intro xs
  induction xs with
  | nil =>
    intro groups G ops h
    rw [show revLoop env groups [] = ([], .ok groups) from rfl] at h
    simp only [Prod.mk.injEq, Res.ok.injEq] at h
    obtain ⟨h1, h2⟩ := h
    subst h2
    rw [← h1]
    simp
  | cons e rest ih =>
    intro groups G ops h
    have hstep : ∀ w : WriteEvent,
        revLoop env groups (RevEvent.typed w :: rest) = (ops, Res.ok G) →
        revLoop env groups (RevEvent.typed w :: (rest ++ ys)) =
          (ops ++ (revLoop env G ys).1, (revLoop env G ys).2) := by
      intro w hw
      cases hh : handle env groups w with
      | mk opsH rH =>
        cases rH with
        | ok g1 =>
          rw [revLoop_typed_ok hh] at hw
          cases hr : revLoop env g1 rest with
          | mk ops2 r2 =>
            rw [hr] at hw
            simp only [Prod.mk.injEq] at hw
            obtain ⟨h1, h2⟩ := hw
            rw [h2] at hr
            rw [revLoop_typed_ok hh, ih hr, ← h1]
            simp
        | err e1 =>
          rw [revLoop_typed_err hh] at hw
          cases hr : revLoop env ([] : Groups) rest with
          | mk ops2 r2 =>
            rw [hr] at hw
            simp only [Prod.mk.injEq] at hw
            obtain ⟨h1, h2⟩ := hw
            rw [h2] at hr
            rw [revLoop_typed_err hh, ih hr, ← h1]
            simp
        | panicked e1 =>
          rw [revLoop_typed_panicked hh] at hw
          simp at hw
    cases e with
    | other =>
      rw [show revLoop env groups (RevEvent.other :: rest) =
        revLoop env groups rest from rfl] at h
      rw [show (RevEvent.other :: rest) ++ ys = RevEvent.other :: (rest ++ ys)
        from rfl]
      rw [show revLoop env groups (RevEvent.other :: (rest ++ ys)) =
        revLoop env groups (rest ++ ys) from rfl]
      exact ih h
    | typed w =>
      exact hstep w h
    | bytes b =>
      rw [show (RevEvent.bytes b :: rest) ++ ys = RevEvent.bytes b :: (rest ++ ys)
        from rfl]
      cases hu : env.unmarshal b with
      | none =>
        rw [revLoop_bytes_none hu] at h
        rw [revLoop_bytes_none hu]
        exact ih h
      | some w =>
        rw [revLoop_bytes_some hu] at h
        rw [revLoop_bytes_some hu]
        exact hstep w h

theorem Rev_eq_of_ok {env : Env} {evs : List RevEvent} {ops : List Op}
    {G : Groups} (hne : evs ≠ []) (h : revLoop env [] evs = (ops, .ok G)) :
    Rev env (some evs) = ops ++ flushGroups G := by
  simp only [Rev]
  rw [if_neg (by
    intro hlt
    exact hne (List.eq_nil_of_length_eq_zero (by omega)))]
  rw [h]

/-! Element-id counting across the accumulator. -/

theorem tablesElemCount_set {tables : List elementsInTable} {i : Nat}
    {et et' : elementsInTable} (h : tables[i]? = some et) (x : Nat) :
    tablesElemCount x (tables.set i et') + et.elements.elementIDs.count x =
    tablesElemCount x tables + et'.elements.elementIDs.count x := by
  induction tables generalizing i with
  | nil => simp at h
  | cons a rest ih =>
    cases i with
    | zero =>
      simp only [List.getElem?_cons_zero, Option.some.injEq] at h
      subst h
      simp only [List.set_cons_zero, tablesElemCount]
      omega
    | succ j =>
      simp only [List.getElem?_cons_succ] at h
      simp only [List.set_cons_succ, tablesElemCount]
      have := ih h
      omega

theorem tablesElemCount_append (tables : List elementsInTable)
    (et : elementsInTable) (x : Nat) :
    tablesElemCount x (tables ++ [et]) =
      tablesElemCount x tables + et.elements.elementIDs.count x := by
  induction tables with
  | nil => simp [tablesElemCount]
  | cons a rest ih =>
    show a.elements.elementIDs.count x + tablesElemCount x (rest ++ [et]) =
      a.elements.elementIDs.count x + tablesElemCount x rest +
        et.elements.elementIDs.count x
    rw [ih]
    omega

theorem elemIDCount_setGroup {gs : Groups} {gn : String}
    {eg1 eg2 : elementsInGroup} (h : lookupGroup gs gn = some eg1) (x : Nat) :
    elemIDCount x (setGroup gs gn eg2) + tablesElemCount x eg1.tables =
    elemIDCount x gs + tablesElemCount x eg2.tables := by
  induction gs with
  | nil => simp [lookupGroup] at h
  | cons q rest ih =>
    obtain ⟨k, v⟩ := q
    by_cases hk : k = gn
    · simp only [lookupGroup, if_pos hk, Option.some.injEq] at h
      subst h
      simp only [setGroup, if_pos hk, elemIDCount]
      omega
    · simp only [lookupGroup, if_neg hk] at h
      simp only [setGroup, if_neg hk, elemIDCount]
      have := ih h
      omega

theorem elemIDCount_append (gs : Groups) (gn : String) (eg : elementsInGroup)
    (x : Nat) :
    elemIDCount x (gs ++ [(gn, eg)]) =
      elemIDCount x gs + tablesElemCount x eg.tables := by
  induction gs with
  | nil => simp [elemIDCount]
  | cons q rest ih =>
    obtain ⟨k, v⟩ := q
    show tablesElemCount x v.tables + elemIDCount x (rest ++ [(gn, eg)]) =
      tablesElemCount x v.tables + elemIDCount x rest +
        tablesElemCount x eg.tables
    rw [ih]
    omega

/-! Characterisation of the inner tag loop of `processElements`. -/

theorem appendField_ok {fields : List Field} {key : FieldKey} {typ : TagType}
    {v : TagValue} {noSort : Bool} (h : typ ≠ TagType.unspecified) :
    ∃ fs, appendField fields key typ v noSort = some fs := by
  cases typ
  case unspecified => exact absurd rfl h
  case int =>
    unfold appendField
    cases hv : v.getInt <;> exact ⟨_, rfl⟩
  case string =>
    unfold appendField
    cases hv : v.getStr <;> exact ⟨_, rfl⟩
  case dataBinary =>
    unfold appendField
    cases hv : v.getBinaryData <;> exact ⟨_, rfl⟩
  case intArray =>
    unfold appendField
    cases hv : v.getIntArray <;> exact ⟨_, rfl⟩
  case stringArray =>
    unfold appendField
    cases hv : v.getStrArray <;> exact ⟨_, rfl⟩

theorem encodeTagValue_ok {name : String} {typ : TagType} {v : TagValue}
    (h : typ ≠ TagType.unspecified) :
    ∃ tv, encodeTagValue name typ v = some tv := by
  cases typ
  case unspecified => exact absurd rfl h
  case int => exact ⟨_, rfl⟩
  case string => exact ⟨_, rfl⟩
  case dataBinary => exact ⟨_, rfl⟩
  case intArray =>
    unfold encodeTagValue
    cases hv : v.getIntArray <;> exact ⟨_, rfl⟩
  case stringArray =>
    unfold encodeTagValue
    cases hv : v.getStrArray <;> exact ⟨_, rfl⟩

theorem encodeTagValue_some_props {name : String} {typ : TagType}
    {v : TagValue} {tv : tagValue} (h : encodeTagValue name typ v = some tv) :
    tv.tag = name ∧ tv.valueType = tagTypeToValueType typ := by
  cases typ
  case unspecified => simp [encodeTagValue] at h
  case int =>
    simp only [encodeTagValue, Option.some.injEq] at h
    subst h
    exact ⟨rfl, rfl⟩
  case string =>
    simp only [encodeTagValue, Option.some.injEq] at h
    subst h
    exact ⟨rfl, rfl⟩
  case dataBinary =>
    simp only [encodeTagValue, Option.some.injEq] at h
    subst h
    exact ⟨rfl, rfl⟩
  case intArray =>
    unfold encodeTagValue at h
    cases hv : v.getIntArray <;> simp only [hv, Option.some.injEq] at h <;>
      subst h <;> exact ⟨rfl, rfl⟩
  case stringArray =>
    unfold encodeTagValue at h
    cases hv : v.getStrArray <;> simp only [hv, Option.some.injEq] at h <;>
      subst h <;> exact ⟨rfl, rfl⟩

theorem encodeTagValue_null_props {name : String} {typ : TagType}
    {tv : tagValue} (h : encodeTagValue name typ TagValue.null = some tv) :
    tv.value = none ∧ tv.valueArr = none := by
  cases typ
  case unspecified => simp [encodeTagValue] at h
  all_goals
    simp only [encodeTagValue, TagValue.getInt, TagValue.getStr,
      TagValue.getBinaryData, TagValue.getIntArray, TagValue.getStrArray,
      Option.map_none, Option.some.injEq] at h
  all_goals subst h
  all_goals exact ⟨rfl, rfl⟩

theorem processTagRule_ok {tfr : List (String × IndexRule)} {t : TagSpec}
    {sid : Nat} {fields : List Field} (tagVal : Option TagValue)
    (hty : t.typ ≠ TagType.unspecified) :
    ∃ fields1, processTagRule tfr t sid tagVal fields =
      .ok (indexedFlag tfr tagVal t, fields1) := by
  unfold processTagRule indexedFlag
  cases hlr : lookupRule tfr t.name with
  | none => exact ⟨fields, rfl⟩
  | some r =>
    cases htv : tagVal.isSome with
    | false =>
      refine ⟨fields, ?_⟩
      simp
    | true =>
      by_cases hinv : r.ruleType = IndexRuleType.inverted
      · obtain ⟨fs, hfs⟩ := @appendField_ok fields
          { indexRuleID := r.id, analyzer := r.analyzer, seriesID := sid }
          _ (tagVal.getD TagValue.null) r.noSort hty
        refine ⟨fs, ?_⟩
        simp [hfs, hinv]
      · by_cases hskip : r.ruleType = IndexRuleType.skipping
        · refine ⟨fields, ?_⟩
          simp [hinv, hskip]
        · refine ⟨fields, ?_⟩
          simp [hinv, hskip, beq_eq_false_iff_ne]

theorem processTags_cons_ok {tfr : List (String × IndexRule)}
    {entitySet : List String} {tagFamily : Option (List TagValue)} {sid : Nat}
    {t : TagSpec} {rest : List TagSpec} {j : Nat} {fields fields1 : List Field}
    {indexed : Bool}
    (hAR : processTagRule tfr t sid (resolveTag tagFamily j) fields =
      .ok (indexed, fields1)) (acc : List tagValue) :
    processTags tfr entitySet tagFamily sid (t :: rest) j fields acc =
      (if t.indexedOnly || entitySet.contains t.name then
        processTags tfr entitySet tagFamily sid rest (j + 1) fields1 acc
      else
        match encodeTagValue t.name t.typ
            ((resolveTag tagFamily j).getD TagValue.null) with
        | none => .panicked "unsupported tag value type"
        | some tv =>
          processTags tfr entitySet tagFamily sid rest (j + 1) fields1
            (acc ++ [{ tv with indexed := indexed }])) := by
  conv_lhs => unfold processTags
  rw [hAR]

theorem processTags_spec {tfr : List (String × IndexRule)}
    {entitySet : List String} {tagFamily : Option (List TagValue)} {sid : Nat} :
    ∀ (specs : List TagSpec) (j : Nat) (fields : List Field)
      (acc : List tagValue),
      (∀ t ∈ specs, t.typ ≠ TagType.unspecified) →
      ∃ fields2,
        processTags tfr entitySet tagFamily sid specs j fields acc =
          .ok (acc ++ ((enumFrom j specs).filter
            (fun p => keepTag entitySet p.2)).map
              (fun p => tagSlotSpec tfr tagFamily p.1 p.2), fields2) := by
  intro specs
  induction specs with
  | nil =>
    intro j fields acc hty
    exact ⟨fields, by simp [processTags, enumFrom]⟩
  | cons t rest ih =>
    intro j fields acc hty
    have hty_t : t.typ ≠ TagType.unspecified := hty t (List.mem_cons_self _ _)
    have hty_rest : ∀ u ∈ rest, u.typ ≠ TagType.unspecified :=
      fun u hu => hty u (List.mem_cons_of_mem _ hu)
    obtain ⟨fields1, hAR⟩ := @processTagRule_ok tfr t sid fields
      (resolveTag tagFamily j) hty_t
    have hstep := @processTags_cons_ok tfr entitySet tagFamily sid t rest j
      fields fields1 _ hAR acc
    by_cases hkeep : t.indexedOnly || entitySet.contains t.name
    · have hkt : keepTag entitySet t = false := by unfold keepTag; rw [hkeep]; rfl
      rw [if_pos hkeep] at hstep
      obtain ⟨fields2, hrec⟩ := ih (j + 1) fields1 acc hty_rest
      refine ⟨fields2, ?_⟩
      rw [hstep, hrec]
      have henum : ((enumFrom j (t :: rest)).filter
          (fun p => keepTag entitySet p.2)) =
          (enumFrom (j + 1) rest).filter (fun p => keepTag entitySet p.2) := by
        simp [enumFrom, List.filter_cons, hkt]
      rw [henum]
    · have hbf : (t.indexedOnly || entitySet.contains t.name) = false := by
        cases hb : (t.indexedOnly || entitySet.contains t.name)
        · rfl
        · exact absurd hb hkeep
      have hkt : keepTag entitySet t = true := by unfold keepTag; rw [hbf]; rfl
      rw [if_neg hkeep] at hstep
      obtain ⟨tv, htv⟩ := @encodeTagValue_ok t.name t.typ
        ((resolveTag tagFamily j).getD TagValue.null) hty_t
      rw [htv] at hstep
      have hstep2 : processTags tfr entitySet tagFamily sid (t :: rest) j
          fields acc =
          processTags tfr entitySet tagFamily sid rest (j + 1) fields1
            (acc ++ [{ tv with
              indexed := indexedFlag tfr (resolveTag tagFamily j) t }]) := by
        rw [hstep]
      obtain ⟨fields2, hrec⟩ := ih (j + 1) fields1
        (acc ++ [{ tv with
          indexed := indexedFlag tfr (resolveTag tagFamily j) t }]) hty_rest
      refine ⟨fields2, ?_⟩
      rw [hstep2, hrec]
      have hslot : tagSlotSpec tfr tagFamily j t =
          { tv with indexed := indexedFlag tfr (resolveTag tagFamily j) t } := by
        unfold tagSlotSpec
        rw [htv]
      have henum : ((enumFrom j (t :: rest)).filter
          (fun p => keepTag entitySet p.2)) =
          (j, t) :: ((enumFrom (j + 1) rest).filter
            (fun p => keepTag entitySet p.2)) := by
        simp [enumFrom, List.filter_cons, hkt]
      rw [henum]
      simp [hslot, List.append_assoc]

theorem filter_length_compl (p : TagSpec → Bool) :
    ∀ specs : List TagSpec,
      (specs.filter (fun t => !(p t))).length + (specs.filter p).length =
      specs.length := by
  intro specs
  induction specs with
  | nil => rfl
  | cons t rest ih =>
    cases hp : p t
    · simp [List.filter_cons, hp]
      omega
    · simp [List.filter_cons, hp]
      omega

theorem enumFrom_filter_len (q : TagSpec → Bool) :
    ∀ (specs : List TagSpec) (j : Nat),
      ((enumFrom j specs).filter (fun pr => q pr.2)).length =
      (specs.filter q).length := by
  intro specs
  induction specs with
  | nil => intro j; rfl
  | cons t rest ih =>
    intro j
    cases hq : q t
    · simp [enumFrom, List.filter_cons, hq, ih (j + 1)]
    · simp [enumFrom, List.filter_cons, hq, ih (j + 1)]

end Stream

namespace Sched

theorem Register_ok_spec {parse : Nat → String → Option Nat} {s : Scheduler}
    {name : String} {options : Nat} {expr : String} {s' : Scheduler}
    (h : Register parse s name options expr = .ok s') :
    s.closed = false ∧ lookupTask s.tasks name = none ∧
    ∃ sch, parse options expr = some sch ∧
      s' = { s with tasks := s.tasks ++ [(name, sch)] } := by
  unfold Register at h
  by_cases hcl : s.closed = true
  · rw [if_pos hcl] at h
    exact RegisterResult.noConfusion h
  · rw [if_neg hcl] at h
    have hclf : s.closed = false := by
      cases hb : s.closed
      · rfl
      · exact absurd hb hcl
    by_cases hdup : (lookupTask s.tasks name).isSome = true
    · rw [if_pos hdup] at h
      exact RegisterResult.noConfusion h
    · rw [if_neg hdup] at h
      have hnone : lookupTask s.tasks name = none := by
        cases hb : lookupTask s.tasks name
        · rfl
        · exact absurd (by rw [hb]; rfl) hdup
      cases hp : parse options expr with
      | none =>
        rw [hp] at h
        exact RegisterResult.noConfusion h
      | some sch =>
        rw [hp] at h
        injection h with h1
        exact ⟨hclf, hnone, sch, rfl, h1.symm⟩

theorem lookupTask_append_self {tasks : List (String × Nat)} {name : String}
    {sch : Nat} (h : lookupTask tasks name = none) :
    lookupTask (tasks ++ [(name, sch)]) name = some sch := by
  induction tasks with
  | nil => simp [lookupTask]
  | cons q rest ih =>
    obtain ⟨k, v⟩ := q
    by_cases hk : k = name
    · simp [lookupTask, hk] at h
    · simp only [lookupTask, if_neg hk] at h
      simp only [List.cons_append, lookupTask, if_neg hk]
      exact ih h

theorem closed_tasks_empty {parse : Nat → String → Option Nat} :
    ∀ {s : Scheduler}, Reachable parse s → s.closed = true → s.tasks = [] := by
  intro s h
  induction h with
  | init =>
    intro hc
    simp [NewScheduler] at hc
  | @step sb sc hreach hstep ih =>
    intro hc
    cases hstep with
    | register name opts expr s2 hreg =>
      obtain ⟨hclf, -, sch, -, hs2⟩ := Register_ok_spec hreg
      rw [hs2] at hc
      have h1 : sb.closed = true := hc
      rw [hclf] at h1
      exact Bool.noConfusion h1
    | close => rfl
    | taskExit name =>
      have h1 : sb.closed = true := hc
      have h2 := ih h1
      simp [taskExit, h2]

theorem closed_persists {parse : Nat → String → Option Nat} :
    ∀ {s s' : Scheduler}, Relation.ReflTransGen (Step parse) s s' →
      s.closed = true → s'.closed = true := by
  intro s s' h
  induction h with
  | refl => exact id
  | @tail b c hsteps hstep ih =>
    intro hc
    have hc2 := ih hc
    cases hstep with
    | register name opts expr s2 hreg =>
      obtain ⟨hclf, -, -⟩ := Register_ok_spec hreg
      rw [hclf] at hc2
      exact Bool.noConfusion hc2
    | close => rfl
    | taskExit name => exact hc2

end Sched

namespace Stream

/-! Facts about the concrete environment, and the decomposition of `Rev`
over an arbitrary loop outcome. -/

/-- The concrete environment satisfies the segment-creation contracts. -/
theorem cEnv_WF : WFEnv cEnv := by
  constructor
  · intro tsdb ts seg h
    have h1 : cSegment = seg := Option.some.inj h
    rw [← h1]
    rfl
  · intro tsdb ts ts2 seg seg2 h1 h2 h3
    have e1 : cSegment = seg := Option.some.inj h1
    have e2 : cSegment = seg2 := Option.some.inj h2
    rw [← e1, ← e2]

/-- The concrete environment only admits positive timestamps. -/
theorem cEnv_TsPos : TsPos cEnv := by
  intro t h
  exact le_of_lt (of_decide_eq_true h)

/-- `Rev` on a batch whose loop succeeds: loop trace, then flush trace. -/
theorem Rev_post_ok {env : Env} {post : List RevEvent} {ops2 : List Op}
    {G2 : Groups} (h : revLoop env [] post = (ops2, .ok G2)) :
    Rev env (some post) = ops2 ++ flushGroups G2 := by
  cases post with
  | nil =>
    rw [show revLoop env ([] : Groups) ([] : List RevEvent) =
      ([], .ok ([] : Groups)) from rfl] at h
    simp only [Prod.mk.injEq, Res.ok.injEq] at h
    obtain ⟨h1, h2⟩ := h
    subst h2
    subst h1
    rfl
  | cons e rest =>
    exact Rev_eq_of_ok (by simp) h

/-- `Rev` on a batch whose loop ends in an error: the loop trace only. -/
theorem Rev_post_err {env : Env} {post : List RevEvent} {ops2 : List Op}
    {m : String} (h : revLoop env [] post = (ops2, .err m)) :
    Rev env (some post) = ops2 := by
  cases post with
  | nil =>
    rw [show revLoop env ([] : Groups) ([] : List RevEvent) =
      ([], .ok ([] : Groups)) from rfl] at h
    simp at h
  | cons e rest =>
    simp only [Rev]
    rw [if_neg (by simp), h]

/-- `Rev` on a batch whose loop panics: the loop trace only. -/
theorem Rev_post_panicked {env : Env} {post : List RevEvent} {ops2 : List Op}
    {m : String} (h : revLoop env [] post = (ops2, .panicked m)) :
    Rev env (some post) = ops2 := by
  cases post with
  | nil =>
    rw [show revLoop env ([] : Groups) ([] : List RevEvent) =
      ([], .ok ([] : Groups)) from rfl] at h
    simp at h
  | cons e rest =>
    simp only [Rev]
    rw [if_neg (by simp), h]

/-- A position-value pair of the enumeration carries a spec of the list. -/
theorem enumFrom_mem {jt : Nat} {t : TagSpec} :
    ∀ {specs : List TagSpec} {j : Nat},
      (jt, t) ∈ enumFrom j specs → t ∈ specs := by
  intro specs
  induction specs with
  | nil =>
    intro j h
    simp [enumFrom] at h
  | cons a rest ih =>
    intro j h
    simp only [enumFrom, List.mem_cons] at h
    rcases h with h | h
    · simp only [Prod.mk.injEq] at h
      rw [h.2]
      exact List.mem_cons_self _ _
    · exact List.mem_cons_of_mem _ (ih h)

/-- Claim C1, counterexample: a batch whose single event is rejected by
`handle` after its segment was acquired. The acquisition trace of the
`Rev` call holds one successful `CreateSegmentIfNotExist`, yet no `DecRef`
at all is performed before `Rev` returns: the error path resets the
accumulator without releasing the held segment. -/
theorem C1_counterexample :
    ((Rev cEnv (some [RevEvent.typed cBadEv])).filter isSegmentAcqOp).length
      = 1 ∧
    ((Rev cEnv (some [RevEvent.typed cBadEv])).filter isDecRefOp).length
      = 0 :=
  ⟨rfl, rfl⟩

/-- Claim C1 (amended): for every group that survives the per-event loop
and is flushed, each held segment receives exactly one `DecRef` (the loop
phase performs none, and the flush of the group emits one `DecRef` per held
segment — the docs-nonempty guard never suppresses them because a flushed
group always holds series documents). Segments dropped by an error reset of
the accumulator are, by the counterexample, never released. -/
theorem C1_decref_balance {env : Env} (evs : List RevEvent) (ops : List Op)
    (G : Groups) (gn : String) (g : elementsInGroup)
    (hWF : WFEnv env) (hTs : TsPos env) (hne : evs ≠ [])
    (hloop : revLoop env [] evs = (ops, Res.ok G)) (hmem : (gn, g) ∈ G) :
    Rev env (some evs) = ops ++ flushGroups G ∧
    ops.filter isDecRefOp = [] ∧
    (groupFlushOps g).filter isDecRefOp =
      g.segments.map (fun s => Op.decRef s.sid) := by
  have hInv := (revLoop_ok_inv hWF hTs (GroupsInv_nil env) hloop).2 (gn, g) hmem
  exact ⟨Rev_eq_of_ok hne hloop,
    filter_eq_nil_of_loopOps (revLoop_ops hloop) loopOp_not_decRef,
    groupFlushOps_filter_decRef hInv.docs_ne⟩

/-- Witness for C1 at the concrete one-event batch. -/
theorem C1_decref_balance_witness :
    Rev cEnv (some cBatch) = cLoopOps ++ flushGroups cG ∧
    cLoopOps.filter isDecRefOp = [] ∧
    (groupFlushOps cEg).filter isDecRefOp =
      cEg.segments.map (fun s => Op.decRef s.sid) :=
  C1_decref_balance cBatch cLoopOps cG "g" cEg cEnv_WF cEnv_TsPos
    (by simp [cBatch]) rfl (List.Mem.head _)

/-- Claim C2: within one `Rev` call, for any group the loop leaves behind,
the pending series documents carry pairwise distinct seriesIDs (the
`docIDsAdded` set deduplicates the appends), the held segments have
pairwise distinct identities, and the flush performs exactly one series
`Insert` per held segment IndexDB, each carrying that document list — so
each distinct seriesID is inserted at most once into any one IndexDB. -/
theorem C2_series_dedup {env : Env} (evs : List RevEvent) (ops : List Op)
    (G : Groups) (gn : String) (g : elementsInGroup)
    (hWF : WFEnv env) (hTs : TsPos env)
    (hloop : revLoop env [] evs = (ops, Res.ok G)) (hmem : (gn, g) ∈ G) :
    (g.docs.map Document.docID).Nodup ∧
    (g.segments.map Segment.sid).Nodup ∧
    (groupFlushOps g).filter isInsertOp =
      g.segments.map (fun s => Op.indexInsert s.sid g.docs) := by
  have hInv := (revLoop_ok_inv hWF hTs (GroupsInv_nil env) hloop).2 (gn, g) hmem
  refine ⟨?_, hInv.segs_nodup, groupFlushOps_filter_insert hInv.docs_ne⟩
  have h1 := hInv.added_nodup
  rw [hInv.added_eq] at h1
  exact h1

/-- Witness for C2 at the concrete one-event batch. -/
theorem C2_series_dedup_witness :
    (cEg.docs.map Document.docID).Nodup ∧
    (cEg.segments.map Segment.sid).Nodup ∧
    (groupFlushOps cEg).filter isInsertOp =
      cEg.segments.map (fun s => Op.indexInsert s.sid cEg.docs) :=
  C2_series_dedup cBatch cLoopOps cG "g" cEg cEnv_WF cEnv_TsPos rfl
    (List.Mem.head _)

/-- Claim C3: with `maxDiskUsagePercent = 0`, `CheckHealth` returns the
DiskFull error; a configuration of 101 is clamped at setup to behave
exactly as 100; and with probe value `p` and effective threshold `t` of at
least 1, `CheckHealth` rejects exactly when `p` reaches `t`. -/
theorem C3_admission_control (p t : Int) (ht : 1 ≤ t) :
    (CheckHealth 0 p).isSome = true ∧
    CheckHealth (setUpWriteCallback 101) p =
      CheckHealth (setUpWriteCallback 100) p ∧
    ((CheckHealth t p).isSome = true ↔ t ≤ p) := by
  refine ⟨rfl, rfl, ?_⟩
  unfold CheckHealth
  rw [if_neg (by omega)]
  constructor
  · intro hs
    by_cases hp : p < t
    · rw [if_pos hp] at hs
      exact Bool.noConfusion hs
    · omega
  · intro hle
    rw [if_neg (by omega)]
    rfl

/-- Witness for C3 at probe 42, threshold 50. -/
theorem C3_admission_control_witness :
    (CheckHealth 0 42).isSome = true ∧
    CheckHealth (setUpWriteCallback 101) 42 =
      CheckHealth (setUpWriteCallback 100) 42 ∧
    ((CheckHealth 50 42).isSome = true ↔ (50 : Int) ≤ 42) :=
  C3_admission_control 42 50 (by decide)

end Stream

namespace Stream

/-- Claim C4: in `Rev`, a byte payload that fails to unmarshal and an event
of unrecognised type are skipped, processing continuing with the next
event; and when `handle` returns an error, the whole accumulator is reset
to the empty map and processing continues with the next event, so events
accepted before the error contribute no flushed rows: the call performs the
pre-error loop trace, the failing handle trace, and then behaves exactly as
a fresh `Rev` of the remaining events. -/
theorem C4_error_handling {env : Env} {pre post : List RevEvent}
    {ops0 opsB : List Op} {G : Groups} {bad : WriteEvent} {msg : String}
    {garbage : List Nat} (groups : Groups) (rest : List RevEvent)
    (h0 : revLoop env [] pre = (ops0, Res.ok G))
    (h1 : handle env G bad = (opsB, Res.err msg))
    (h2 : env.unmarshal garbage = none) :
    Rev env (some (pre ++ RevEvent.typed bad :: post)) =
      ops0 ++ opsB ++ Rev env (some post) ∧
    revLoop env groups (RevEvent.bytes garbage :: rest) =
      revLoop env groups rest ∧
    revLoop env groups (RevEvent.other :: rest) = revLoop env groups rest := by
  refine ⟨?_, revLoop_bytes_none h2, rfl⟩
  have hstep := @revLoop_typed_err env G bad post opsB msg h1
  cases hp : revLoop env ([] : Groups) post with
  | mk ops2 r2 =>
    have hcomb : revLoop env [] (pre ++ RevEvent.typed bad :: post) =
        (ops0 ++ (opsB ++ ops2), r2) := by
      rw [revLoop_append h0, hstep, hp]
    cases r2 with
    | ok G2 =>
      have hRev : Rev env (some (pre ++ RevEvent.typed bad :: post)) =
          (ops0 ++ (opsB ++ ops2)) ++ flushGroups G2 := Rev_post_ok hcomb
      have hPost : Rev env (some post) = ops2 ++ flushGroups G2 :=
        Rev_post_ok hp
      rw [hRev, hPost]
      simp [List.append_assoc]
    | err m =>
      have hRev : Rev env (some (pre ++ RevEvent.typed bad :: post)) =
          ops0 ++ (opsB ++ ops2) := Rev_post_err hcomb
      have hPost : Rev env (some post) = ops2 := Rev_post_err hp
      rw [hRev, hPost]
      simp [List.append_assoc]
    | panicked m =>
      have hRev : Rev env (some (pre ++ RevEvent.typed bad :: post)) =
          ops0 ++ (opsB ++ ops2) := Rev_post_panicked hcomb
      have hPost : Rev env (some post) = ops2 := Rev_post_panicked hp
      rw [hRev, hPost]
      simp [List.append_assoc]

/-- Witness for C4 at the rejected concrete event and an unparsable
payload. -/
theorem C4_error_handling_witness :
    Rev cEnv (some (([] : List RevEvent) ++ RevEvent.typed cBadEv :: [])) =
      [] ++ cBadRes.1 ++ Rev cEnv (some []) ∧
    revLoop cEnv [] (RevEvent.bytes [0] :: []) = revLoop cEnv [] [] ∧
    revLoop cEnv [] (RevEvent.other :: []) = revLoop cEnv [] [] :=
  C4_error_handling [] []
    rfl
    (show handle cEnv [] cBadEv = (cBadRes.1, Res.err cBadMsg) from rfl)
    rfl

/-- Claim C5: for every group flushed by `Rev`, `tsdb.Tick` is emitted
exactly once (never by the loop phase, once inside the flush of the group,
as its last operation, and once per group overall), and its argument is the
groups `latestTS`, which is the maximum timestamp among the staged events
of the group. -/
theorem C5_tick {env : Env} (evs : List RevEvent) (ops : List Op)
    (G : Groups) (gn : String) (g : elementsInGroup) (t0 : Int)
    (hWF : WFEnv env) (hTs : TsPos env) (hne : evs ≠ [])
    (hloop : revLoop env [] evs = (ops, Res.ok G)) (hmem : (gn, g) ∈ G) :
    Rev env (some evs) = ops ++ flushGroups G ∧
    ops.filter isTickOp = [] ∧
    (groupFlushOps g).filter isTickOp = [Op.tick g.tsdb g.latestTS] ∧
    (groupFlushOps g).getLast? = some (Op.tick g.tsdb g.latestTS) ∧
    g.latestTS ∈ groupTimestamps g ∧
    (t0 ∈ groupTimestamps g → t0 ≤ g.latestTS) ∧
    (flushGroups G).filter isTickOp =
      G.map (fun p => Op.tick p.2.tsdb p.2.latestTS) := by
  have hInv := (revLoop_ok_inv hWF hTs (GroupsInv_nil env) hloop).2 (gn, g) hmem
  exact ⟨Rev_eq_of_ok hne hloop,
    filter_eq_nil_of_loopOps (revLoop_ops hloop) loopOp_not_tick,
    groupFlushOps_filter_tick g,
    groupFlushOps_getLast g,
    hInv.ts_mem,
    fun hm => hInv.ts_le t0 hm,
    flushGroups_filter_tick G⟩

/-- Witness for C5 at the concrete one-event batch. -/
theorem C5_tick_witness :
    Rev cEnv (some cBatch) = cLoopOps ++ flushGroups cG ∧
    cLoopOps.filter isTickOp = [] ∧
    (groupFlushOps cEg).filter isTickOp = [Op.tick cEg.tsdb cEg.latestTS] ∧
    (groupFlushOps cEg).getLast? = some (Op.tick cEg.tsdb cEg.latestTS) ∧
    cEg.latestTS ∈ groupTimestamps cEg ∧
    ((5 : Int) ∈ groupTimestamps cEg → (5 : Int) ≤ cEg.latestTS) ∧
    (flushGroups cG).filter isTickOp =
      cG.map (fun p => Op.tick p.2.tsdb p.2.latestTS) :=
  C5_tick cBatch cLoopOps cG "g" cEg 5 cEnv_WF cEnv_TsPos
    (by simp [cBatch]) rfl (List.Mem.head _)

/-- Claim C6: one successful `handle` call appends exactly one element id
to the accumulator, and that id is the 64-bit hash of the stream name, the
character bar, and the client-supplied element id, concatenated: counting
occurrences of any id across the staged tables, the accepted event
contributes one occurrence of the hash of that string and nothing else. -/
theorem C6_element_id {env : Env} {dst dst' : Groups} {ev : WriteEvent}
    (x : Nat) (ops : List Op)
    (h : handle env dst ev = (ops, Res.ok dst')) :
    elemIDCount x dst' = elemIDCount x dst +
      (if x = env.hashStr (ev.name ++ "|" ++ ev.elementId) then 1 else 0) := by
  obtain ⟨-, ops1, ops2, gn, eg, dst1, etIdx, eg1, eg2, hPG, hPT, hPE, -,
    hdst'⟩ := handle_ok_spec h
  obtain ⟨hgn, tsdb, hL, -, hcase⟩ := prepareElementsInGroup_ok_spec hPG
  obtain ⟨et, stm, sid, buf, tfs, fields, hET, -, -, -, -, -, -, heg2⟩ :=
    processElements_ok_spec hPE
  subst hgn
  have htab2 : eg2.tables = eg1.tables.set etIdx
      (appendedTable et ev.timestamp
        (env.hashStr (ev.name ++ "|" ++ ev.elementId)) sid tfs fields) := by
    rw [heg2]
    split <;> rfl
  have hAT : (appendedTable et ev.timestamp
      (env.hashStr (ev.name ++ "|" ++ ev.elementId)) sid tfs
      fields).elements.elementIDs.count x =
      et.elements.elementIDs.count x +
      (if x = env.hashStr (ev.name ++ "|" ++ ev.elementId) then 1 else 0) := by
    show (et.elements.elementIDs ++
      [env.hashStr (ev.name ++ "|" ++ ev.elementId)]).count x = _
    rw [List.count_append]
    by_cases hx : x = env.hashStr (ev.name ++ "|" ++ ev.elementId)
    · rw [if_pos hx, hx]
      simp
    · rw [if_neg hx]
      have hx2 : env.hashStr (ev.name ++ "|" ++ ev.elementId) ≠ x :=
        Ne.symm hx
      simp [List.count_singleton', hx2]
  have hS := @tablesElemCount_set eg1.tables etIdx et
    (appendedTable et ev.timestamp
      (env.hashStr (ev.name ++ "|" ++ ev.elementId)) sid tfs fields) hET x
  have htabs1 : tablesElemCount x eg1.tables = tablesElemCount x eg.tables := by
    rcases prepareElementsInTable_ok_spec hPT with ⟨-, -, heg1⟩ |
      ⟨-, seg, tid, -, -, hsub⟩
    · rw [heg1]
    · rcases hsub with ⟨-, -, heg1⟩ | ⟨-, -, -, heg1⟩
      · rw [heg1]
        show tablesElemCount x (eg.tables ++ [newElementsInTable seg tid]) = _
        rw [tablesElemCount_append]
        simp [newElementsInTable, emptyElements]
      · rw [heg1]
        show tablesElemCount x (eg.tables ++ [newElementsInTable seg tid]) = _
        rw [tablesElemCount_append]
        simp [newElementsInTable, emptyElements]
  rw [← htab2] at hS
  rw [hAT] at hS
  rcases hcase with ⟨eg0, hlk, heg, hdst1⟩ | ⟨hlk, hegv, hdst1⟩
  · have htab0 : eg.tables = eg0.tables := by
      rw [heg]
      split <;> rfl
    have hlk1 : lookupGroup dst1 ev.group = some eg := by
      rw [hdst1]
      exact lookupGroup_setGroup_self hlk
    have E1 := @elemIDCount_setGroup dst ev.group eg0 eg hlk x
    have E2 := @elemIDCount_setGroup dst1 ev.group eg eg2 hlk1 x
    rw [← hdst1] at E1
    rw [← hdst'] at E2
    have htc : tablesElemCount x eg.tables = tablesElemCount x eg0.tables := by
      rw [htab0]
    generalize hd : (if x = env.hashStr (ev.name ++ "|" ++ ev.elementId)
      then 1 else 0) = d
    rw [hd] at hS
    omega
  · have hlk1 : lookupGroup dst1 ev.group = some eg := by
      rw [hdst1]
      exact lookupGroup_append_self hlk
    have E1 : elemIDCount x dst1 =
        elemIDCount x dst + tablesElemCount x eg.tables := by
      rw [hdst1]
      exact elemIDCount_append dst ev.group eg x
    have E2 := @elemIDCount_setGroup dst1 ev.group eg eg2 hlk1 x
    rw [← hdst'] at E2
    have hC1 : tablesElemCount x eg.tables = 0 := by
      rw [hegv]
      rfl
    generalize hd : (if x = env.hashStr (ev.name ++ "|" ++ ev.elementId)
      then 1 else 0) = d
    rw [hd] at hS
    omega

/-- Witness for C6 at the concrete accepted event: the hash parameter of
the environment is the string length, and the hashed string n bar e has
length 3. -/
theorem C6_element_id_witness :
    elemIDCount 3 cHandleG = elemIDCount 3 ([] : Groups) +
      (if 3 = cEnv.hashStr (cEv.name ++ "|" ++ cEv.elementId) then 1
       else 0) :=
  C6_element_id 3 cHandleRes.1 rfl

end Stream

namespace Stream

/-- Claim C8: when the data of the message handed to `Rev` is not a list
(modelled as `none`) or is an empty list, `Rev` returns at once with an
empty operation trace — no tsdb load, segment or table creation, row
commit, index write, DecRef or Tick — and builds no accumulator state. -/
theorem C8_early_return (env : Env) :
    Rev env none = [] ∧ Rev env (some []) = [] :=
  ⟨rfl, rfl⟩

/-- Claim C9: over one tag family, for every tag spec that is neither in
the entity set nor indexed-only, the loop stores exactly one encoded value,
in schema position order: the stored list is the image of the kept specs
under the per-slot encoding, its length is the family tag count minus the
entity and indexed-only tags, and a slot whose tag is absent from the
request holds the null value of the declared type — nil value bytes, nil
value array, the declared value type and the spec name. -/
theorem C9_tag_materialisation {tfr : List (String × IndexRule)}
    {entitySet : List String} {tagFamily : Option (List TagValue)} {sid : Nat}
    (specs : List TagSpec) (j : Nat)
    (hty : ∀ t ∈ specs, t.typ ≠ TagType.unspecified) :
    (∃ fields2, processTags tfr entitySet tagFamily sid specs j [] [] =
      Res.ok (((enumFrom j specs).filter (fun p => keepTag entitySet p.2)).map
        (fun p => tagSlotSpec tfr tagFamily p.1 p.2), fields2)) ∧
    (((enumFrom j specs).filter (fun p => keepTag entitySet p.2)).map
      (fun p => tagSlotSpec tfr tagFamily p.1 p.2)).length =
      specs.length - (specs.filter
        (fun t => t.indexedOnly || entitySet.contains t.name)).length ∧
    (∀ jt t, (jt, t) ∈ enumFrom j specs → resolveTag tagFamily jt = none →
      (tagSlotSpec tfr tagFamily jt t).value = none ∧
      (tagSlotSpec tfr tagFamily jt t).valueArr = none ∧
      (tagSlotSpec tfr tagFamily jt t).valueType = tagTypeToValueType t.typ ∧
      (tagSlotSpec tfr tagFamily jt t).tag = t.name) := by
  refine ⟨?_, ?_, ?_⟩
  · obtain ⟨fields2, hpt⟩ := processTags_spec specs j [] [] hty
    refine ⟨fields2, ?_⟩
    rw [hpt, List.nil_append]
  · rw [List.length_map, enumFrom_filter_len (keepTag entitySet) specs j]
    have hconv : specs.filter (keepTag entitySet) =
        specs.filter (fun t => !(t.indexedOnly || entitySet.contains t.name)) :=
      rfl
    rw [hconv]
    have hlen2 := filter_length_compl
      (fun t => t.indexedOnly || entitySet.contains t.name) specs
    omega
  · intro jt t hmem hres
    have hty_t : t.typ ≠ TagType.unspecified := hty t (enumFrom_mem hmem)
    obtain ⟨tv, htv⟩ := @encodeTagValue_ok t.name t.typ TagValue.null hty_t
    have hslot : tagSlotSpec tfr tagFamily jt t =
        { tv with indexed := indexedFlag tfr none t } := by
      unfold tagSlotSpec
      rw [hres]
      simp only [Option.getD_none]
      rw [htv]
    obtain ⟨hval, harr⟩ := encodeTagValue_null_props htv
    obtain ⟨htag, hvt⟩ := encodeTagValue_some_props htv
    rw [hslot]
    exact ⟨hval, harr, hvt, htag⟩

/-- Witness for C9 at the single-tag schema fixture, with the family
absent from the request. -/
theorem C9_tag_materialisation_witness :
    (∃ fields2, processTags [] [] none 0 [cTagSpecA] 0 [] [] =
      Res.ok (((enumFrom 0 [cTagSpecA]).filter (fun p => keepTag [] p.2)).map
        (fun p => tagSlotSpec [] none p.1 p.2), fields2)) ∧
    (((enumFrom 0 [cTagSpecA]).filter (fun p => keepTag [] p.2)).map
      (fun p => tagSlotSpec [] none p.1 p.2)).length =
      ([cTagSpecA] : List TagSpec).length - (([cTagSpecA] : List TagSpec).filter
        (fun t => t.indexedOnly || ([] : List String).contains t.name)).length ∧
    (∀ jt t, (jt, t) ∈ enumFrom 0 [cTagSpecA] → resolveTag none jt = none →
      (tagSlotSpec [] none jt t).value = none ∧
      (tagSlotSpec [] none jt t).valueArr = none ∧
      (tagSlotSpec [] none jt t).valueType = tagTypeToValueType t.typ ∧
      (tagSlotSpec [] none jt t).tag = t.name) :=
  C9_tag_materialisation [cTagSpecA] 0 (by decide)

end Stream

namespace Sched

/-- Claim C7: on an open scheduler, `Register` with an already-registered
name returns the Duplicate error; after `Close`, and along any further
registry transitions, every `Register` call returns the Closed error; a
successful `Register` leaves the task registered under its name; and
`Close` removes every task from the registry. -/
theorem C7_scheduler_registry {parse : Nat → String → Option Nat}
    {s0 s s2 : Scheduler} (name0 name : String) (options0 options : Nat)
    (expr0 expr : String) {sr : Scheduler}
    (h1 : s0.closed = false) (h2 : (lookupTask s0.tasks name0).isSome = true)
    (hok : Register parse s name options expr = .ok sr)
    (hsteps : Relation.ReflTransGen (Step parse) (Close s) s2) :
    Register parse s0 name0 options0 expr0 = RegisterResult.duplicatedErr ∧
    (lookupTask sr.tasks name).isSome = true ∧
    (∀ name3 options3 expr3,
      Register parse s2 name3 options3 expr3 = RegisterResult.closedErr) ∧
    (Close s).tasks = [] := by
  refine ⟨?_, ?_, ?_, rfl⟩
  · unfold Register
    rw [if_neg (by simp [h1]), if_pos h2]
  · obtain ⟨-, hnone, sch, -, hsr⟩ := Register_ok_spec hok
    rw [hsr]
    show (lookupTask (s.tasks ++ [(name, sch)]) name).isSome = true
    rw [lookupTask_append_self hnone]
    rfl
  · intro name3 options3 expr3
    have hc : s2.closed = true := closed_persists hsteps rfl
    unfold Register
    rw [if_pos hc]

/-- Witness for C7: register task t on a fresh scheduler, then close. -/
theorem C7_scheduler_registry_witness :
    Register cParse cSched1 "t" 0 "e" = RegisterResult.duplicatedErr ∧
    (lookupTask cSched1.tasks "t").isSome = true ∧
    (∀ name3 options3 expr3, Register cParse (Close NewScheduler)
      name3 options3 expr3 = RegisterResult.closedErr) ∧
    (Close NewScheduler).tasks = [] :=
  C7_scheduler_registry "t" "t" 0 0 "e" "e" rfl rfl
    (show Register cParse NewScheduler "t" 0 "e" = .ok cSched1 from rfl)
    Relation.ReflTransGen.refl

/-- Claim C10: `Register` checks the closed flag before the duplicate-name
check: on a closed scheduler whose registry still holds the name, the call
returns the Closed error and never the Duplicate error. -/
theorem C10_closed_before_duplicate {parse : Nat → String → Option Nat}
    {s : Scheduler} (name : String) (options : Nat) (expr : String)
    (h1 : s.closed = true) (h2 : (lookupTask s.tasks name).isSome = true) :
    Register parse s name options expr = RegisterResult.closedErr ∧
    Register parse s name options expr ≠ RegisterResult.duplicatedErr := by
  have he : Register parse s name options expr = RegisterResult.closedErr := by
    unfold Register
    rw [if_pos h1]
  refine ⟨he, ?_⟩
  rw [he]
  intro hc
  exact RegisterResult.noConfusion hc

/-- Witness for C10 on a closed scheduler still holding task t. -/
theorem C10_closed_before_duplicate_witness :
    Register cParse { tasks := [("t", 0)], closed := true } "t" 0 "e" =
      RegisterResult.closedErr ∧
    Register cParse { tasks := [("t", 0)], closed := true } "t" 0 "e" ≠
      RegisterResult.duplicatedErr :=
  C10_closed_before_duplicate "t" 0 "e" rfl rfl

end Sched
